import Mathlib

/-!
Verification of the phrase/formula computation engine of the
Sine-Requie character-sheet system (ComputablePhrase, Formula,
and the property-convergence loop of the template system).

The JavaScript sources are shallowly embedded: JS runtime values become
the inductive `JSVal`; the external math-expression library (mathjs) is
abstracted as an evaluator parameter; suspension points (dialogs, dice
rolls, roll tables, script execution) are abstracted as oracle
environments; everything else is translated statement by statement from
the source files.
-/

namespace CSB

/-! ## JavaScript values -/

/-- JavaScript runtime values as used by the formula engine.
IEEE-754 numbers are modelled as rationals; `NaN` is represented by
failure of `toNumber` and the infinities are outside the model (none of
the engine paths verified here produce them). -/
inductive JSVal where
  | undef
  | null
  | bool (b : Bool)
  | num (q : Rat)
  | str (s : String)
  | list (elems : List JSVal)
  | obj (fields : List (String × JSVal))

/-- Truthiness of a value (JS `if (v)`). -/
def JSVal.truthy : JSVal → Bool
  | .undef => false
  | .null => false
  | .bool b => b
  | .num q => decide (q ≠ 0)
  | .str s => decide (s ≠ "")
  | .list _ => true
  | .obj _ => true

/-- Nullishness of a value (left operand test of JS `??`). -/
def JSVal.isNullish : JSVal → Bool
  | .undef => true
  | .null => true
  | _ => false

/-- JS nullish coalescing `a ?? b`. -/
def jsCoalesce (a b : JSVal) : JSVal := if a.isNullish then b else a

/-- Lookup in a JS object literal, `undefined` when the key is absent. -/
def objGet (fields : List (String × JSVal)) (k : String) : JSVal :=
  match fields.find? (fun p => p.fst = k) with
  | some p => p.snd
  | none => (.undef : JSVal)

/-- JS property assignment `o[k] = v`: overwrite in place, otherwise
append, preserving insertion order of keys. -/
def objSet {α : Type _} (fields : List (String × α)) (k : String) (v : α) :
    List (String × α) :=
  if fields.any (fun p => p.fst = k)
  then fields.map (fun p => if p.fst = k then (k, v) else p)
  else fields ++ [(k, v)]

/-- JS object spread `{...a, ...b}`. -/
def objMerge {α : Type _} (a b : List (String × α)) : List (String × α) :=
  b.foldl (fun acc p => objSet acc p.fst p.snd) a

/-- Dotted-path traversal, `foundry.utils.getProperty(v, "a.b.c")` after
the path has been split at the dots. -/
def getPath : JSVal → List String → JSVal
  | v, [] => v
  | .obj fs, k :: ks => getPath (objGet fs k) ks
  | _, _ :: _ => (.undef : JSVal)

/-- Split a key at the dots (JS `key.split('.')`). -/
def splitPathGo : List Char → List Char → List String
  | [], acc => [String.mk acc.reverse]
  | '.' :: t, acc => String.mk acc.reverse :: splitPathGo t []
  | c :: t, acc => splitPathGo t (c :: acc)

/-- `foundry.utils.getProperty(v, key)`. -/
def getProperty (v : JSVal) (key : String) : JSVal :=
  getPath v (splitPathGo key.data [])

/-! ## JS number coercion (`Number(v)`) -/

/-- Characters stripped by `Number(string)` before parsing. -/
def isJsSpace (c : Char) : Bool :=
  c = ' ' || c = '\t' || c = '\n' || c = '\r' || c = '\x0b' || c = '\x0c'

/-- Value of a digit string. -/
def digitsToNat (l : List Char) : Nat :=
  l.foldl (fun a c => a * 10 + (c.toNat - 48)) 0

/-- Value of a hex digit. -/
def hexDigitToNat (c : Char) : Nat :=
  if c.isDigit then c.toNat - 48
  else if 'a' ≤ c ∧ c ≤ 'f' then c.toNat - 87
  else c.toNat - 55

/-- Radix-prefixed integer literal body (`0x…`, `0o…`, `0b…`). -/
def parseRadix (radix : Nat) (isDig : Char → Bool) (toD : Char → Nat)
    (cs : List Char) : Option Rat :=
  if cs ≠ [] ∧ cs.all isDig
  then some ((cs.foldl (fun a c => a * radix + toD c) 0 : Nat) : Rat)
  else none

/-- Exponent part of a decimal literal, after the `e`: optional sign and
a nonempty digit run consuming the whole remainder. -/
def parseExpPart (cs : List Char) : Option Int :=
  match cs with
  | '+' :: r => if r ≠ [] ∧ r.all Char.isDigit then some (digitsToNat r) else none
  | '-' :: r => if r ≠ [] ∧ r.all Char.isDigit then some (-(digitsToNat r : Int)) else none
  | r => if r ≠ [] ∧ r.all Char.isDigit then some (digitsToNat r) else none

/-- Apply a decimal exponent to a rational. -/
def applyExp (base : Rat) (e : Int) : Rat :=
  if 0 ≤ e then base * (10 : Rat) ^ e.toNat else base / (10 : Rat) ^ (-e).toNat

/-- Unsigned decimal literal: `digits [. digits] [exp]` or `. digits [exp]`,
consuming the whole input. -/
def parseDecimal (cs : List Char) : Option Rat :=
  let ds := cs.takeWhile Char.isDigit
  let r1 := cs.dropWhile Char.isDigit
  match r1 with
  | [] => if ds = [] then none else some ((digitsToNat ds : Nat) : Rat)
  | '.' :: r2 =>
    let fs := r2.takeWhile Char.isDigit
    let r3 := r2.dropWhile Char.isDigit
    if ds = [] ∧ fs = [] then none
    else
      let base : Rat := ((digitsToNat (ds ++ fs) : Nat) : Rat) / (10 : Rat) ^ fs.length
      match r3 with
      | [] => some base
      | 'e' :: r4 => (parseExpPart r4).map (applyExp base)
      | 'E' :: r4 => (parseExpPart r4).map (applyExp base)
      | _ => none
  | 'e' :: r4 =>
    if ds = [] then none
    else (parseExpPart r4).map (applyExp ((digitsToNat ds : Nat) : Rat))
  | 'E' :: r4 =>
    if ds = [] then none
    else (parseExpPart r4).map (applyExp ((digitsToNat ds : Nat) : Rat))
  | _ => none

/-- `Number(string)`: trim JS whitespace, empty means `0`, otherwise a
numeric literal; `none` models `NaN`. (The literals `Infinity` and
`-Infinity` are outside this model.) -/
def jsStringToNumber (s : String) : Option Rat :=
  let t := ((s.data.dropWhile isJsSpace).reverse.dropWhile isJsSpace).reverse
  match t with
  | [] => some 0
  | '0' :: 'x' :: r => parseRadix 16 (fun c => c.isDigit || ('a' ≤ c ∧ c ≤ 'f') || ('A' ≤ c ∧ c ≤ 'F')) hexDigitToNat r
  | '0' :: 'X' :: r => parseRadix 16 (fun c => c.isDigit || ('a' ≤ c ∧ c ≤ 'f') || ('A' ≤ c ∧ c ≤ 'F')) hexDigitToNat r
  | '0' :: 'o' :: r => parseRadix 8 (fun c => '0' ≤ c ∧ c ≤ '7') (fun c => c.toNat - 48) r
  | '0' :: 'O' :: r => parseRadix 8 (fun c => '0' ≤ c ∧ c ≤ '7') (fun c => c.toNat - 48) r
  | '0' :: 'b' :: r => parseRadix 2 (fun c => c = '0' ∨ c = '1') (fun c => c.toNat - 48) r
  | '0' :: 'B' :: r => parseRadix 2 (fun c => c = '0' ∨ c = '1') (fun c => c.toNat - 48) r
  | '+' :: r => parseDecimal r
  | '-' :: r => (parseDecimal r).map (fun q => -q)
  | r => parseDecimal r

/-- Smallest power of ten clearing the denominator, if any within `fuel`
steps. Every value a JS double can hold is a dyadic rational, for which
this always succeeds. -/
def decimalScale (q : Rat) : Nat → Option Nat
  | 0 => none
  | fuel + 1 =>
    if (q * (10 : Rat) ^ (fuel + 1)).den = 1 then
      match decimalScale q fuel with
      | some k => some k
      | none => some (fuel + 1)
    else none

/-- Render a rational the way JS renders the corresponding number.
Exact for integers and finite decimals (which cover all dyadic
rationals, hence all doubles); other rationals cannot arise from a
faithful double computation and get a fraction rendering. -/
def ratToJsString (q : Rat) : String :=
  if q.den = 1 then toString q.num
  else
    match decimalScale q 64 with
    | some k =>
      let n := (q * (10 : Rat) ^ k).num
      let sign := if n < 0 then "-" else ""
      let a := n.natAbs
      let ip := a / 10 ^ k
      let fp := a % 10 ^ k
      let fpDigits := toString fp
      let pad := String.mk (List.replicate (k - fpDigits.length) '0')
      sign ++ toString ip ++ "." ++ pad ++ fpDigits
    | none => toString q.num ++ "/" ++ toString q.den

mutual
/-- JS `String(v)` coercion. -/
def jsValToString : JSVal → String
  | .undef => "undefined"
  | .null => "null"
  | .bool b => if b then "true" else "false"
  | .num q => ratToJsString q
  | .str s => s
  | .list l => String.intercalate "," (jsListToStrings l)
  | .obj _ => "[object Object]"

/-- Elementwise string coercion of an array (`Array.prototype.join`):
null and undefined elements render empty. -/
def jsListToStrings : List JSVal → List String
  | [] => []
  | v :: vs =>
    (match v with
     | .undef => ""
     | .null => ""
     | w => jsValToString w) :: jsListToStrings vs
end

/-- JS `Number(v)` on a general value; `none` models `NaN`. -/
def toNumber : JSVal → Option Rat
  | .undef => none
  | .null => some 0
  | .bool b => some (if b then 1 else 0)
  | .num q => some q
  | .str s => jsStringToNumber s
  | .list l => jsStringToNumber (jsValToString (.list l))
  | .obj _ => none

/-! ## JS string helpers -/

/-- Does `pat` start `hay`? -/
def startsWithL : List Char → List Char → Bool
  | _, [] => true
  | [], _ :: _ => false
  | a :: as, b :: bs => a = b && startsWithL as bs

/-- Index of the first occurrence of `pat` in `hay` (JS `indexOf`). -/
def findSub : List Char → List Char → Option Nat
  | hay, pat =>
    if startsWithL hay pat then some 0
    else
      match hay with
      | [] => none
      | _ :: t => (findSub t pat).map (· + 1)

/-- Expansion of a replacement string for JS `String.prototype.replace`
with a string pattern: `$$`, `$&`, `` $` `` and the dollar-apostrophe
form are substituted, everything else is literal. -/
def expandReplacement (matched before after : List Char) : List Char → List Char
  | [] => []
  | '$' :: '$' :: r => '$' :: expandReplacement matched before after r
  | '$' :: '&' :: r => matched ++ expandReplacement matched before after r
  | '$' :: '\'' :: r => after ++ expandReplacement matched before after r
  | '$' :: c :: r =>
    if c = Char.ofNat 96 then before ++ expandReplacement matched before after r
    else '$' :: c :: expandReplacement matched before after r
  | c :: r => c :: expandReplacement matched before after r

/-- JS `hay.replace(pat, rep)` with string arguments: first occurrence
only, with `$`-substitution in the replacement. -/
def jsReplaceFirstL (hay pat rep : List Char) : List Char :=
  match findSub hay pat with
  | none => hay
  | some i =>
    hay.take i ++ expandReplacement pat (hay.take i) (hay.drop (i + pat.length)) rep
      ++ hay.drop (i + pat.length)

/-- String wrapper for `jsReplaceFirstL`. -/
def jsReplaceFirst (hay pat rep : String) : String :=
  String.mk (jsReplaceFirstL hay.data pat.data rep.data)

theorem findSub_some_bound (hay pat : List Char) (i : Nat)
    (hp : pat ≠ []) (h : findSub hay pat = some i) :
    i + pat.length ≤ hay.length ∧ 0 < pat.length := by
  induction hay generalizing i with
  | nil =>
    rw [findSub] at h
    cases pat with
    | nil => exact absurd rfl hp
    | cons b bs => simp [startsWithL] at h
  | cons a t ih =>
    rw [findSub] at h
    by_cases hs : startsWithL (a :: t) pat = true
    · simp [hs] at h
      subst h
      constructor
      · have : ∀ (l p : List Char), startsWithL l p = true → p.length ≤ l.length := by
          intro l
          induction l with
          | nil => intro p hsw; cases p with
            | nil => simp
            | cons x xs => simp [startsWithL] at hsw
          | cons x xs ihl => intro p hsw; cases p with
            | nil => simp
            | cons y ys =>
              simp [startsWithL] at hsw
              simpa using Nat.succ_le_succ (ihl ys hsw.2)
        simpa using this (a :: t) pat hs
      · cases pat with
        | nil => exact absurd rfl hp
        | cons b bs => simp
    · simp [hs] at h
      obtain ⟨j, hj, rfl⟩ := h
      obtain ⟨h1, h2⟩ := ih j hj
      refine ⟨?_, h2⟩
      simp only [List.length_cons]
      omega

/-- JS `hay.replaceAll(pat, rep)` with string arguments: scan left to
right, continuing after each replaced occurrence. An empty pattern
inserts the replacement at every position. The fuel only bounds the
eliminated structural recursion; every occurrence consumes input, so
`hay.length + 1` is always enough (see the wrapper). -/
def jsReplaceAllGo : Nat → List Char → List Char → List Char → List Char
  | 0, hay, _, _ => hay
  | fuel + 1, hay, pat, rep =>
    if pat = [] then
      match hay with
      | [] => expandReplacement [] [] [] rep
      | c :: t => expandReplacement [] [] (c :: t) rep ++ c :: jsReplaceAllGo fuel t pat rep
    else
      match findSub hay pat with
      | none => hay
      | some i =>
        hay.take i ++ expandReplacement pat (hay.take i) (hay.drop (i + pat.length)) rep
          ++ jsReplaceAllGo fuel (hay.drop (i + pat.length)) pat rep

/-- String wrapper for `jsReplaceAllGo`, supplying sufficient fuel. -/
def jsReplaceAll (hay pat rep : String) : String :=
  String.mk (jsReplaceAllGo (hay.data.length + 1) hay.data pat.data rep.data)

/-! ## The Block Extractor (`ComputablePhrase._extractFormulas`) -/

/-- Which family of block is currently being extracted. -/
inductive BlockKind where
  | formula
  | script
deriving DecidableEq

/-- Loop state of `_extractFormulas`. -/
structure ExtractState where
  nFormulaBrackets : Int := 0
  nScriptBrackets : Int := 0
  extracted : List (List Char) := []
  currentExtract : List Char := []
  extracting : Option BlockKind := none

/-- One-pass character scan of `_extractFormulas`: the current pair is
the current character plus the next one (the empty string at the end of
input, which matches no bracket pair, is modelled by a NUL sentinel that
likewise never matches). -/
def extractGo (st : ExtractState) : List Char → ExtractState
  | [] => st
  | c :: rest =>
    let nc : Char := match rest with
      | [] => Char.ofNat 0
      | d :: _ => d
    let st1 : ExtractState :=
      if c = '$' ∧ nc = '\x7b' then
        { st with nFormulaBrackets := st.nFormulaBrackets + 1,
                  extracting := if st.extracting = none then some .formula else st.extracting }
      else if c = '%' ∧ nc = '\x7b' then
        { st with nScriptBrackets := st.nScriptBrackets + 1,
                  extracting := if st.extracting = none then some .script else st.extracting }
      else if c = '\x7d' ∧ nc = '$' then
        let nF := st.nFormulaBrackets - 1
        if nF = 0 ∧ st.extracting = some .formula then
          { st with nFormulaBrackets := nF, extracting := none,
                    extracted := st.extracted ++ [st.currentExtract ++ [c, nc]],
                    currentExtract := [] }
        else { st with nFormulaBrackets := nF }
      else if c = '\x7d' ∧ nc = '%' then
        let nS := st.nScriptBrackets - 1
        -- the source tests the *formula* counter here, not the script one
        if st.nFormulaBrackets = 0 ∧ st.extracting = some .script then
          { st with nScriptBrackets := nS, extracting := none,
                    extracted := st.extracted ++ [st.currentExtract ++ [c, nc]],
                    currentExtract := [] }
        else { st with nScriptBrackets := nS }
      else st
    let st2 : ExtractState :=
      if st1.extracting ≠ none then { st1 with currentExtract := st1.currentExtract ++ [c] }
      else st1
    extractGo st2 rest

/-- `ComputablePhrase._extractFormulas`. -/
def extractFormulas (expression : String) : List String :=
  (extractGo {} expression.data).extracted.map String.mk

/-! ## Errors -/

/-- Payload of an `UncomputableError` (module/errors/errors.js): the
message, the offending token, the formula text and the diagnostic scope. -/
structure UncompErr where
  message : String
  token : String
  formula : String
  scope : JSVal

/-- Outcome classification of one parse-plus-evaluate run of the math
library: an unresolvable-reference failure, or any other fault. -/
inductive MathErr where
  | uncomputable (e : UncompErr)
  | other (message : String)

/-- The external math-expression library (mathjs `parse`/`evaluate`,
with the symbol hook installed by `computeStatic`): given the stripped
formula, the evaluation scope and the configured default value, produce
a value or fail. It is a parameter of the embedding because the library
is an external collaborator of the engine. -/
def MathEval : Type :=
  String → JSVal → JSVal → Except MathErr JSVal

/-! ## Numeric coercion (`getNumberCastValue`) and reference lookup (`ref`) -/

/-- `getNumberCastValue` closure of `Formula.computeStatic`: booleans
pass through; values whose `Number(...)` coercion is `NaN` fall back
through `value ?? defaultValue ?? null`; everything else becomes the
coerced number. -/
def getNumberCastValue (defaultValue : JSVal) (value : JSVal) : JSVal :=
  match value with
  | .bool b => .bool b
  | v =>
    match toNumber v with
    | none => jsCoalesce v (jsCoalesce defaultValue .null)
    | some q => .num q

/-- Is the value exactly `undefined`? (JS `=== undefined`.) -/
def JSVal.isUndef : JSVal → Bool
  | .undef => true
  | _ => false

/-- The injected `ref(valueRef, fallbackValue)` function of
`Formula.computeStatic`. The explanation-cache write (`computedTokens`)
has no effect on the returned value and is not modelled; `valueRef` is a
string at every call site, with JS truthiness `valueRef ≠ ""`. -/
def ref (allValues : JSVal) (availableKeys : List String) (defaultValue : JSVal)
    (formula : String) (valueRef : String) (fallbackValue : JSVal) :
    Except UncompErr JSVal :=
  let returnValue0 := jsCoalesce fallbackValue defaultValue
  let realValue : JSVal := if valueRef ≠ "" then getProperty allValues valueRef else .undef
  let returnValue : JSVal :=
    if valueRef ≠ "" then jsCoalesce (getNumberCastValue defaultValue realValue) returnValue0
    else returnValue0
  if returnValue.isUndef || (realValue.isUndef && availableKeys.contains valueRef) then
    .error ⟨"Uncomputable token ref(" ++ valueRef ++ ")",
            "ref(" ++ valueRef ++ ")", formula, allValues⟩
  else
    .ok returnValue

/-! ## The Text-Literal Isolator (`handleTextVars`) -/

/-- Scan for the closing quote of the regex for quoted literals: the
content runs up to the next quote not preceded by a backslash; a line
terminator or the end of input aborts the match (the regex dot does not
cross line breaks). Returns the content and the remainder after the
closing quote. -/
def closeSplit (prev : Char) : List Char → Option (List Char × List Char)
  | [] => none
  | c :: cs =>
    if c = '\'' ∧ prev ≠ '\\' then some ([], cs)
    else if c = '\n' ∨ c = '\r' then none
    else (closeSplit c cs).map (fun p => (c :: p.1, p.2))

theorem closeSplit_structure (prev : Char) (cs content after : List Char)
    (h : closeSplit prev cs = some (content, after)) :
    cs = content ++ '\'' :: after := by
  induction cs generalizing prev content after with
  | nil => simp [closeSplit] at h
  | cons c t ih =>
    rw [closeSplit] at h
    by_cases h1 : c = '\'' ∧ prev ≠ '\\'
    · rw [if_pos h1] at h
      injection h with h
      injection h with h2 h3
      subst h2
      subst h3
      simp [h1.1]
    · rw [if_neg h1] at h
      by_cases h2 : c = '\n' ∨ c = '\r'
      · rw [if_pos h2] at h
        exact absurd h (by simp)
      · rw [if_neg h2] at h
        cases hsp : closeSplit c t with
        | none => rw [hsp] at h; simp at h
        | some p =>
          obtain ⟨p1, p2⟩ := p
          rw [hsp] at h
          simp only [Option.map_some'] at h
          injection h with h
          injection h with h3 h4
          subst h3
          subst h4
          simp [ih c p1 p2 hsp]

theorem closeSplit_after_length (prev : Char) (cs content after : List Char)
    (h : closeSplit prev cs = some (content, after)) :
    after.length < cs.length := by
  have := closeSplit_structure prev cs content after h
  subst this
  simp
  omega

theorem length_dropWhile_le_self (p : Char → Bool) (l : List Char) :
    (l.dropWhile p).length ≤ l.length := by
  induction l with
  | nil => simp [List.dropWhile]
  | cons a t ih =>
    rw [List.dropWhile]
    by_cases h : p a
    · simp only [h]
      exact Nat.le_succ_of_le ih
    · simp [h]

/-- All matches of the quoted-literal regex over the input, in the order
`matchAll` reports them: a quote not preceded by a backslash opens, the
next such quote closes; when no closing quote exists before a line
break, the scan resumes after the line break (no boundary quote can
occur earlier, so no match can start there either). Each step consumes
at least one input character, so fuel `cs.length` is always enough. -/
def quoteMatchesGo : Nat → Char → List Char → List (List Char)
  | 0, _, _ => []
  | fuel + 1, prev, cs =>
    match cs with
    | [] => []
    | c :: rest =>
      if c = '\'' ∧ prev ≠ '\\' then
        match closeSplit '\'' rest with
        | some (content, after) =>
          ('\'' :: (content ++ ['\''])) :: quoteMatchesGo fuel '\'' after
        | none =>
          match rest.dropWhile (fun d => ¬(d = '\n' ∨ d = '\r')) with
          | [] => []
          | d :: tail => quoteMatchesGo fuel d tail
      else quoteMatchesGo fuel c rest

/-- All matches of the quoted-literal regex in a string. -/
def quoteMatches (s : String) : List (List Char) :=
  quoteMatchesGo s.data.length (Char.ofNat 0) s.data

/-- Character of a decimal digit. -/
def digitChar (n : Nat) : Char := Char.ofNat (48 + n)

/-- Decimal rendering of a natural number (JS string coercion of the
map-size counter); the fuel only eliminates the division recursion and
`n + 1` always suffices. -/
def natToStringGo : Nat → Nat → List Char
  | 0, _ => []
  | fuel + 1, n =>
    if n < 10 then [digitChar n]
    else natToStringGo fuel (n / 10) ++ [digitChar (n % 10)]

/-- Decimal rendering of a natural number. -/
def natToString (n : Nat) : String := String.mk (natToStringGo (n + 1) n)

/-- One iteration of the `handleTextVars` loop for one regex match:
extract only when the literal contains an embedded quote, name the
entry after the current map size, remove the first backslash from the
content, and replace the first occurrence of the matched text. -/
def handleTextVarsStep (st : String × List (String × String)) (m : List Char) :
    String × List (String × String) :=
  let textValue := (m.drop 1).dropLast
  if textValue.contains '\'' then
    let textRef := "_computedText_" ++ natToString (st.2.length + 1)
    (jsReplaceFirst st.1 (String.mk m) textRef,
     objSet st.2 textRef (String.mk (jsReplaceFirstL textValue ['\\'] [])))
  else st

/-- `handleTextVars(formula, textVars)`: matches are taken on the
original string (`matchAll` snapshots its receiver) and folded through
the replacement loop. -/
def handleTextVars (formula : String)
    (textVars : List (String × String) := []) :
    String × List (String × String) :=
  (quoteMatches formula).foldl handleTextVarsStep (formula, textVars)

/-! ## The Formula data model -/

/-- Result of evaluating one dice expression through the external Roll
API: the numeric total and the canonical formula string. -/
structure RollApiResult where
  total : JSVal
  formula : String

/-- One entry of a Formula's `rolls` list: the formula string retained
for chat display (with arrow annotation when it differs from the
bracket text) and the serialized roll. -/
structure RollRecord where
  formula : String
  roll : RollApiResult

/-- The `Formula` class state. The explanation tree (`_tokens`) belongs
to the Explanation Tree Builder, which is outside the verified claims
and not modelled; fields that are `undefined` before computation carry
their post-construction defaults here. -/
structure Formula where
  raw : String
  result : JSVal := .undef
  localVars : List (String × JSVal) := []
  parsed : String := ""
  hasDice : Bool := false
  rolls : List RollRecord := []
  hidden : Bool := false
  explanation : Bool := true

/-- The entity a phrase is attached to, as far as the verified paths
read it: its property bag. -/
structure TriggerEntity where
  props : JSVal := .obj []

/-- Computation options. JS distinguishes an absent key from a present
one, which matters for `localVars`/`textVars`/`rolls`/`availableKeys`
(destructured with defaults) and is modelled with `Option`;
`defaultValue` and `reference` are read directly, so an absent key is
the same as `undefined` and they stay plain values. -/
structure Options where
  reference : JSVal := .undef
  defaultValue : JSVal := .undef
  localVars : Option (List (String × JSVal)) := none
  textVars : Option (List (String × String)) := none
  rolls : Option (List RollRecord) := none
  computeExplanation : Bool := false
  availableKeys : Option (List String) := none
  triggerEntity : Option TriggerEntity := none
  linkedEntity : Option JSVal := none

/-- Characters of a local-variable name, `[a-zA-Z0-9_-]`. -/
def isVarChar (c : Char) : Bool :=
  c.isAlpha || c.isDigit || c = '_' || c = '-'

/-- JS `String.prototype.trim` (restricted to the whitespace characters
of `isJsSpace`). -/
def jsTrim (s : String) : String :=
  String.mk (((s.data.dropWhile isJsSpace).reverse.dropWhile isJsSpace).reverse)

/-- Decomposition of a leading `name:=rest` assignment according to
`/^([a-zA-Z0-9_-]+):=(.*)$/`: the greedy name run must be followed by
`:=`, and the remainder may not contain a line terminator (the dot does
not cross lines and the anchor must reach the very end). -/
def localVarDecomposed (formula : String) : Option (String × String) :=
  let varChars := formula.data.takeWhile isVarChar
  let afterVar := formula.data.dropWhile isVarChar
  if varChars ≠ [] ∧ startsWithL afterVar [':', '='] ∧
     (afterVar.drop 2).all (fun c => ¬(c = '\n' ∨ c = '\r'))
  then some (String.mk varChars, String.mk (afterVar.drop 2))
  else none

/-- Fields of an object value (call sites only pass objects). -/
def JSVal.fields : JSVal → List (String × JSVal)
  | .obj fs => fs
  | _ => []

/-- `Formula.computeStatic(props, options, formula)`. The math library
run (parse, evaluate, optional explanation walk — everything inside the
source's `try` block) is the abstract evaluator `me`; an
`UncomputableError` raised there is re-thrown, any other fault is
caught, logged and converted to the literal result `"ERROR"`. -/
def Formula.computeStatic (me : MathEval) (f : Formula) (props : JSVal)
    (options : Options) (formulaOverride : Option String := none) :
    Except UncompErr Formula :=
  let formula0 := formulaOverride.getD f.raw
  let defaultValue := options.defaultValue
  let localVars := options.localVars.getD []
  let textVars := options.textVars.getD []
  let rolls := options.rolls.getD []
  let allValues : JSVal := .obj (objMerge props.fields localVars)
  let decomposed := localVarDecomposed formula0
  let localVarName : Option String := decomposed.map Prod.fst
  let formula1 : String := match decomposed with
    | some p => p.2
    | none => formula0
  let tvr := handleTextVars formula1 textVars
  let strippedFormula := jsTrim tvr.1
  -- computedTokens starts empty; its later writes inside the imported
  -- functions feed only the explanation display
  let mathTokens : JSVal :=
    .obj (objMerge (tvr.2.map (fun p => (p.1, JSVal.str p.2))) allValues.fields)
  let finish : JSVal → Except UncompErr Formula := fun result =>
    let localVars2 := match localVarName with
      | some n => objSet localVars n result
      | none => localVars
    .ok { f with result := result, localVars := localVars2,
                 parsed := strippedFormula, hasDice := rolls.length > 0,
                 rolls := rolls }
  match me strippedFormula mathTokens defaultValue with
  | .error (.uncomputable e) => .error e
  | .error (.other _) => finish (JSVal.str "ERROR")
  | .ok result => finish result

/-! ## The Phrase Orchestrator, static variant
(`ComputablePhrase.computeStatic` / `processFormulas`) -/

/-- Oracle for the restricted script execution
`Function('entity','linkedEntity', code)(triggerEntity, linkedEntity)`:
dynamic code execution is an external facility. -/
def ScriptEval : Type :=
  String → Option TriggerEntity → Option JSVal → Except String JSVal

/-- Does `suffix` end `hay`? -/
def endsWithL (hay suffix : List Char) : Bool :=
  startsWithL hay.reverse suffix.reverse

/-- Inner text of a block, `textFormula.substring(2).slice(0, -2)`. -/
def innerOf (tf : String) : String :=
  let d := tf.data.drop 2
  String.mk (d.take (d.length - 2))

/-- The placeholder ids `'form' + nComputed`. -/
def formId (n : Nat) : String := "form" ++ toString n

/-- Normalization of a script-block result before it becomes a Formula
and a textual replacement: `undefined`, `null` and plain objects become
fixed sentinels; anything that is not a number or a boolean is wrapped
as a quoted string literal; numbers and booleans keep their string
coercion (which is also what `String.replace` inserts). -/
def scriptResultRaw (v : JSVal) : String :=
  let v1 : JSVal := match v with
    | .undef => .str "undefined"
    | .null => .str "null"
    | .obj _ => .str "object"
    | w => w
  match v1 with
  | .num q => ratToJsString q
  | .bool b => if b then "true" else "false"
  | w => String.mk ('\'' :: ((jsValToString w).data ++ ['\'']))

/-- Ghost record of one block computation, kept for specification
purposes only: the numeric part of the id the block was stored under,
the local-variable scope handed to its Formula computation, and the
stored Formula. -/
structure BlockTrace where
  computedId : Nat
  usedLocalVars : List (String × JSVal)
  formula : Formula

/-- The closure state of `processFormulas`: the threaded local
variables, the accumulated formulas, the shared block counter, plus the
ghost trace. -/
structure PhraseSt where
  localVars : List (String × JSVal) := []
  computedFormulas : List (String × Formula) := []
  nComputed : Nat := 0
  trace : List BlockTrace := []

/-- Work items of the static phrase interpreter: a `processFormulas`
invocation, or the remainder of its `for`-loop over extracted blocks. -/
inductive PhraseCall where
  | phrase (buildPhrase expression : String) (st : PhraseSt)
  | blocks (blocks : List String) (buildPhrase expression : String) (st : PhraseSt)

/-- The state a work item starts from. -/
def PhraseCall.stOf : PhraseCall → PhraseSt
  | .phrase _ _ st => st
  | .blocks _ _ _ st => st

/-- Result of a `processFormulas` invocation: the rewritten build
phrase and expression, the final closure state, and (ghost, for
specification only) the ids handed to the blocks of the current loop
level. -/
structure PhraseOut where
  buildPhrase : String
  expression : String
  st : PhraseSt
  siblingIds : List Nat

/-- Per-block options `{ localVars, ...options }`: a `localVars` key
present on the phrase options overrides the threaded value (spread
semantics of the source). -/
def blockOptions (opts : Options) (threaded : List (String × JSVal)) : Options :=
  { opts with localVars := some (opts.localVars.getD threaded) }

/-- Closure state after one block: merge the block's local variables
forward, store the Formula under its id, bump the shared counter, and
append the ghost trace record. -/
def afterBlockSt (st1 : PhraseSt) (blockStartId : Nat)
    (usedLv : List (String × JSVal)) (computedId : String) (f1 : Formula) :
    PhraseSt :=
  { localVars := objMerge st1.localVars f1.localVars,
    computedFormulas := objSet st1.computedFormulas computedId f1,
    nComputed := st1.nComputed + 1,
    trace := st1.trace ++ [⟨blockStartId, usedLv, f1⟩] }

/-- Closure state after one script block: unlike the formula branch,
the source's script branch never merges the block Formula's local
variables back into the threaded scope. -/
def afterScriptSt (st1 : PhraseSt) (blockStartId : Nat)
    (usedLv : List (String × JSVal)) (computedId : String) (f1 : Formula) :
    PhraseSt :=
  { localVars := st1.localVars,
    computedFormulas := objSet st1.computedFormulas computedId f1,
    nComputed := st1.nComputed + 1,
    trace := st1.trace ++ [⟨blockStartId, usedLv, f1⟩] }

/-- Prepend the current block's id to the ghost sibling-id list of the
remaining loop. -/
def consSibling (n : Nat) : Except MathErr PhraseOut → Except MathErr PhraseOut
  | .error err => .error err
  | .ok out => .ok { out with siblingIds := n :: out.siblingIds }

/-- Script-block error policy: a throwing snippet falls back to the
configured default when one is set (not null/undefined), otherwise the
error propagates. -/
def scriptOutcome (opts : Options) : Except String JSVal → Except MathErr JSVal
  | .ok v => .ok v
  | .error err =>
    if opts.defaultValue.isNullish then .error (.other err) else .ok opts.defaultValue

/-- The static `processFormulas` of `ComputablePhrase.computeStatic`,
written as a single fuel-indexed interpreter so that every run is a
finite structural recursion: `.phrase` performs the block extraction,
`.blocks` is the body of the `for` loop over extracted blocks, and the
source recursion into nested blocks carries the shared closure state
through `st`. -/
def phraseStepStatic (me : MathEval) (se : ScriptEval) (props : JSVal)
    (opts : Options) :
    Nat → PhraseCall → Except MathErr PhraseOut
  | 0, _ => .error (.other "out of fuel")
  | fuel + 1, .phrase buildPhrase expression st =>
    phraseStepStatic me se props opts fuel
      (.blocks (extractFormulas expression) buildPhrase expression st)
  | _ + 1, .blocks [] buildPhrase expression st => .ok ⟨buildPhrase, expression, st, []⟩
  | fuel + 1, .blocks (tf :: rest) buildPhrase expression st =>
    if startsWithL tf.data ['$', '\x7b'] && endsWithL tf.data ['\x7d', '$'] then
      match phraseStepStatic me se props opts fuel
          (.phrase (innerOf tf) (innerOf tf) st) with
      | .error err => .error err
      | .ok inner =>
        match Formula.computeStatic me { raw := inner.expression } props
            (blockOptions opts inner.st.localVars) none with
        | .error e => .error (.uncomputable e)
        | .ok f1 =>
          consSibling st.nComputed
            (phraseStepStatic me se props opts fuel
              (.blocks rest
                (jsReplaceFirst buildPhrase tf (formId st.nComputed))
                (jsReplaceFirst expression tf (jsValToString f1.result))
                (afterBlockSt inner.st st.nComputed
                  (opts.localVars.getD inner.st.localVars) (formId st.nComputed) f1)))
    else if startsWithL tf.data ['%', '\x7b'] && endsWithL tf.data ['\x7d', '%'] then
      match phraseStepStatic me se props opts fuel
          (.phrase (innerOf tf) (innerOf tf) st) with
      | .error err => .error err
      | .ok inner =>
        match scriptOutcome opts (se inner.expression opts.triggerEntity opts.linkedEntity) with
        | .error err => .error err
        | .ok v =>
          match Formula.computeStatic me { raw := scriptResultRaw v } props
              (blockOptions opts inner.st.localVars) none with
          | .error e => .error (.uncomputable e)
          | .ok f1 =>
            consSibling st.nComputed
              (phraseStepStatic me se props opts fuel
                (.blocks rest
                  (jsReplaceFirst buildPhrase tf (formId st.nComputed))
                  (jsReplaceFirst expression tf (scriptResultRaw v))
                  (afterScriptSt inner.st st.nComputed
                    (opts.localVars.getD inner.st.localVars) (formId st.nComputed) f1)))
    else
      consSibling st.nComputed
        (phraseStepStatic me se props opts fuel
          (.blocks rest buildPhrase expression { st with nComputed := st.nComputed + 1 }))

/-- The `ComputablePhrase` state: the raw phrase, the build phrase with
placeholder ids, the formula map, and the ghost trace. -/
structure ComputablePhrase where
  rawPhrase : String
  buildPhrase : String := ""
  computedFormulas : List (String × Formula) := []
  trace : List BlockTrace := []

/-- Fuel that always suffices for the static phrase interpreter (each
nesting level consumes at least four characters of the expression, see
the accompanying bound lemmas). -/
def phraseFuel (phrase : String) : Nat := 2 * phrase.length + 4

/-- `ComputablePhrase.computeStatic(props, options)`. -/
def ComputablePhrase.computeStatic (me : MathEval) (se : ScriptEval)
    (cp : ComputablePhrase) (props : JSVal) (opts : Options) :
    Except MathErr ComputablePhrase :=
  match phraseStepStatic me se props opts (phraseFuel cp.rawPhrase)
      (.phrase cp.rawPhrase cp.rawPhrase {}) with
  | .ok out =>
    .ok { cp with buildPhrase := out.buildPhrase,
                  computedFormulas := out.st.computedFormulas,
                  trace := out.st.trace }
  | .error err => .error err

/-- The `result` getter: the build phrase with every placeholder id
replaced by the corresponding Formula's result (empty when nullish). -/
def ComputablePhrase.result (cp : ComputablePhrase) : String :=
  cp.computedFormulas.foldl
    (fun phrase kv =>
      jsReplaceAll phrase kv.1
        (if kv.2.result.isNullish then "" else jsValToString kv.2.result))
    cp.buildPhrase

/-- `ComputablePhrase.computeMessageStatic(phrase, props, options)`. -/
def computeMessageStatic (me : MathEval) (se : ScriptEval) (phrase : String)
    (props : JSVal) (opts : Options) : Except MathErr ComputablePhrase :=
  ComputablePhrase.computeStatic me se { rawPhrase := phrase } props opts

/-- Minimal concrete stand-in for the external math library, used to
instantiate witnesses and scenarios: it evaluates digit literals,
quoted string literals, and bare identifiers, the latter with the
undefined-symbol hook installed by `computeStatic` (return the
configured default unless it is `undefined`, otherwise raise an
unresolvable-reference failure). -/
def simpleEval : MathEval := fun formula scope dv =>
  match formula.data with
  | [] => .error (.other "Unexpected end of expression")
  | c :: cs =>
    if (c :: cs).all Char.isDigit then
      .ok (.num (digitsToNat (c :: cs)))
    else if c = '\'' ∧ endsWithL cs ['\''] ∧ cs ≠ [] then
      .ok (.str (String.mk (cs.take (cs.length - 1))))
    else if (c.isAlpha ∨ c = '_') ∧ cs.all (fun d => d.isAlpha ∨ d.isDigit ∨ d = '_') then
      match objGet scope.fields formula with
      | .undef =>
        if dv.isUndef then
          .error (.uncomputable ⟨"Uncomputable token " ++ formula, formula, formula, scope⟩)
        else .ok dv
      | v => .ok v
    else .error (.other "parse error")

/-! ## Claim C1 -/

/-- C1: for every evaluation performed by `Formula.computeStatic`, a
parse or evaluation failure that is not an unresolvable-reference
failure (`UncomputableError`) sets the Formula's result to the literal
string `"ERROR"` and is not propagated to the caller (it is only
logged, which has no modelled effect), while an `UncomputableError`
always propagates out of `computeStatic`. The evaluator is called at
exactly one point, so quantifying over constant evaluators covers every
possible outcome of that call. -/
theorem computeStatic_error_policy :
    ∀ (f : Formula) (props : JSVal) (opts : Options) (fo : Option String),
      (∀ m : String,
        (Formula.computeStatic (fun _ _ _ => Except.error (MathErr.other m))
            f props opts fo).map Formula.result
          = Except.ok (JSVal.str "ERROR")) ∧
      (∀ e : UncompErr,
        Formula.computeStatic (fun _ _ _ => Except.error (MathErr.uncomputable e))
            f props opts fo
          = Except.error e) := by
  intro f props opts fo
  exact ⟨fun m => rfl, fun e => rfl⟩

/-! ## Claim C2 -/

/-- C2: evaluation of the Block Extractor at the failing input
`%{a%{b}%c}%`. The script-closing branch tests the *formula* bracket
counter instead of the script one, so the nested script block is
truncated at the first `}%` (script counter still 1) instead of ending
at the `}%` that returns the script counter to zero, which would give
the whole string. -/
theorem extractFormulas_truncates_nested_script :
    extractFormulas ("%\x7ba%\x7bb\x7d%c\x7d%") = ["%\x7ba%\x7bb\x7d%"] ∧
    (["%\x7ba%\x7bb\x7d%"] : List String) ≠ ["%\x7ba%\x7bb\x7d%c\x7d%"] :=
  ⟨rfl, by decide⟩

/-! ## Claim C3 -/

/-- C3 counterexample: with a configured default (5), a key that is in
the available-keys set but absent from the scope raises an
unresolvable-reference failure instead of returning the default, drawn
from the `realValue === undefined && availableKeys.includes(valueRef)`
disjunct of the throw condition, which ignores the default. -/
theorem ref_counterexample_default_ignored :
    ref (JSVal.obj []) ["k"] (JSVal.num 5) ("x") ("k") JSVal.null
      = Except.error ⟨"Uncomputable token ref(k)", "ref(k)", "x", JSVal.obj []⟩ ∧
    (Except.error ⟨"Uncomputable token ref(k)", "ref(k)", "x", JSVal.obj []⟩ :
        Except UncompErr JSVal) ≠ Except.ok (JSVal.num 5) :=
  ⟨by rfl, fun h => Except.noConfusion h⟩

/-- C3 (amended): for every externally-sourced value passed through the
numeric coercion of `ref`: a boolean passes through unchanged; a string
that parses fully as a number becomes that number; any other string
remains unchanged (whether or not a default is configured or the key is
in the available-keys set); when the key is in the available-keys set
and its value is absent, an unresolvable-reference failure is raised
even when a default is configured; and when the value is absent with no
default and no per-call fallback, the failure is raised as well. -/
theorem ref_numeric_coercion_cases (scope : JSVal) (keys : List String)
    (dv fb : JSVal) (fm k : String) (hk : k ≠ "") :
    (∀ b, getProperty scope k = JSVal.bool b →
        ref scope keys dv fm k fb = Except.ok (JSVal.bool b)) ∧
    (∀ s q, getProperty scope k = JSVal.str s → jsStringToNumber s = some q →
        ref scope keys dv fm k fb = Except.ok (JSVal.num q)) ∧
    (∀ s, getProperty scope k = JSVal.str s → jsStringToNumber s = none →
        ref scope keys dv fm k fb = Except.ok (JSVal.str s)) ∧
    (getProperty scope k = JSVal.undef → keys.contains k = true →
        ref scope keys dv fm k fb
          = Except.error ⟨"Uncomputable token ref(" ++ k ++ ")",
              "ref(" ++ k ++ ")", fm, scope⟩) ∧
    (getProperty scope k = JSVal.undef → fb.isNullish = true → dv = JSVal.undef →
        ref scope keys dv fm k fb
          = Except.error ⟨"Uncomputable token ref(" ++ k ++ ")",
              "ref(" ++ k ++ ")", fm, scope⟩) := by
  refine ⟨?_, ?_, ?_, ?_, ?_⟩
  · intro b h
    simp [ref, hk, h, getNumberCastValue, jsCoalesce, JSVal.isNullish, JSVal.isUndef]
  · intro s q h hq
    simp [ref, hk, h, getNumberCastValue, toNumber, hq, jsCoalesce, JSVal.isNullish,
      JSVal.isUndef]
  · intro s h hq
    simp [ref, hk, h, getNumberCastValue, toNumber, hq, jsCoalesce, JSVal.isNullish,
      JSVal.isUndef]
  · intro h hmem
    simp [ref, hk, h, JSVal.isUndef, hmem]
    intro _
    simpa using hmem
  · intro h hfb hdv
    subst hdv
    cases fb with
    | undef => simp [ref, hk, h, getNumberCastValue, toNumber, jsCoalesce,
        JSVal.isNullish, JSVal.isUndef]
    | null => simp [ref, hk, h, getNumberCastValue, toNumber, jsCoalesce,
        JSVal.isNullish, JSVal.isUndef]
    | bool b => simp [JSVal.isNullish] at hfb
    | num q => simp [JSVal.isNullish] at hfb
    | str s => simp [JSVal.isNullish] at hfb
    | list l => simp [JSVal.isNullish] at hfb
    | obj fs => simp [JSVal.isNullish] at hfb

/-- C3 witness: the amended coercion cases at concrete inputs. -/
theorem ref_numeric_coercion_cases_witness :
    ref (JSVal.obj [("b", JSVal.bool true)]) [] (JSVal.num 5) ("f") ("b") JSVal.null
        = Except.ok (JSVal.bool true) ∧
    ref (JSVal.obj [("s", JSVal.str "3")]) [] JSVal.undef ("f") ("s") JSVal.null
        = Except.ok (JSVal.num 3) ∧
    ref (JSVal.obj [("t", JSVal.str "abc")]) [] JSVal.undef ("f") ("t") JSVal.null
        = Except.ok (JSVal.str "abc") ∧
    ref (JSVal.obj []) ["k"] (JSVal.num 5) ("f") ("k") JSVal.null
        = Except.error ⟨"Uncomputable token ref(k)", "ref(k)", "f", JSVal.obj []⟩ ∧
    ref (JSVal.obj []) [] JSVal.undef ("f") ("k") JSVal.null
        = Except.error ⟨"Uncomputable token ref(k)", "ref(k)", "f", JSVal.obj []⟩ :=
  ⟨(ref_numeric_coercion_cases (JSVal.obj [("b", JSVal.bool true)]) [] (JSVal.num 5)
      JSVal.null ("f") ("b") (by decide)).1 true rfl,
   (ref_numeric_coercion_cases (JSVal.obj [("s", JSVal.str "3")]) [] JSVal.undef
      JSVal.null ("f") ("s") (by decide)).2.1 ("3") 3 rfl rfl,
   (ref_numeric_coercion_cases (JSVal.obj [("t", JSVal.str "abc")]) [] JSVal.undef
      JSVal.null ("f") ("t") (by decide)).2.2.1 ("abc") rfl rfl,
   (ref_numeric_coercion_cases (JSVal.obj []) ["k"] (JSVal.num 5)
      JSVal.null ("f") ("k") (by decide)).2.2.2.1 rfl rfl,
   (ref_numeric_coercion_cases (JSVal.obj []) [] JSVal.undef
      JSVal.null ("f") ("k") (by decide)).2.2.2.2 rfl rfl rfl⟩

/-! ## Claim C10 -/

theorem jsStringToNumber_all_space (s : String) (h : s.data.all isJsSpace) :
    jsStringToNumber s = some 0 := by
  have h1 : s.data.dropWhile isJsSpace = [] := by
    rw [List.dropWhile_eq_nil_iff]
    intro x hx
    exact (List.all_eq_true.mp h) x hx
  simp [jsStringToNumber, h1]

/-- C10: the numeric coercion maps the empty string, any
whitespace-only string, and `null` to the number `0` (because
`Number('')` and `Number(null)` are `0`), rather than leaving them
unchanged or using the configured default; consequently a property
stored as the empty string is seen by arithmetic (here through `ref`)
as `0`. -/
theorem getNumberCastValue_empty_and_null (dv : JSVal) :
    (∀ s : String, s.data.all isJsSpace → getNumberCastValue dv (JSVal.str s) = JSVal.num 0) ∧
    getNumberCastValue dv JSVal.null = JSVal.num 0 ∧
    (∀ (fs : List (String × JSVal)) (keys : List String) (fm k : String) (fb : JSVal),
      k ≠ "" → getProperty (JSVal.obj fs) k = JSVal.str "" →
      ref (JSVal.obj fs) keys dv fm k fb = Except.ok (JSVal.num 0)) := by
  refine ⟨?_, ?_, ?_⟩
  · intro s hs
    simp [getNumberCastValue, toNumber, jsStringToNumber_all_space s hs]
  · simp [getNumberCastValue, toNumber]
  · intro fs keys fm k fb hk h
    simp [ref, hk, h, getNumberCastValue, toNumber, jsStringToNumber, jsCoalesce,
      JSVal.isNullish, JSVal.isUndef]

/-- C10 witness: concrete coercions of the empty string, a blank
string, `null`, and an empty-string property read through `ref`. -/
theorem getNumberCastValue_empty_and_null_witness :
    getNumberCastValue JSVal.undef (JSVal.str "") = JSVal.num 0 ∧
    getNumberCastValue JSVal.undef (JSVal.str "  ") = JSVal.num 0 ∧
    getNumberCastValue JSVal.undef JSVal.null = JSVal.num 0 ∧
    ref (JSVal.obj [("k", JSVal.str "")]) [] JSVal.undef ("f") ("k") JSVal.null
      = Except.ok (JSVal.num 0) :=
  ⟨(getNumberCastValue_empty_and_null JSVal.undef).1 ("") (by decide),
   (getNumberCastValue_empty_and_null JSVal.undef).1 ("  ") (by decide),
   (getNumberCastValue_empty_and_null JSVal.undef).2.1,
   (getNumberCastValue_empty_and_null JSVal.undef).2.2 [("k", JSVal.str "")] [] ("f") ("k")
     JSVal.null (by decide) rfl⟩

/-! ## Claim C4 -/

/-- Script oracle that rejects every snippet; the phrases of the
witnesses and counterexamples contain no script blocks. -/
def noScriptEval : ScriptEval := fun _ _ _ => .error "no scripts"

/-- C4 counterexample: on the phrase `${ ${2}$ }$` the shared counter is
read for the outer block before its nested block is processed, so the
nested Formula (raw `2`) and the outer Formula (raw ` 2 `) are both
stored under id `form0`, the outer record overwriting the nested one:
the placeholder id is bound to two different Formula records within one
`computeStatic` pass of the phrase. -/
theorem processFormulas_id_collision :
    ((computeMessageStatic simpleEval noScriptEval ("$\x7b $\x7b2\x7d$ \x7d$")
        (JSVal.obj []) {}).map
      (fun cp => cp.trace.map (fun t => (t.computedId, t.formula.raw)))).toOption
      = some [(0, "2"), (0, " 2 ")] ∧ ("2" : String) ≠ " 2 " :=
  ⟨by decide!, by decide⟩

theorem consSibling_ok (n : Nat) (r : Except MathErr PhraseOut) (out : PhraseOut)
    (h : consSibling n r = .ok out) :
    ∃ out1, r = .ok out1 ∧ out.st = out1.st ∧
      out.siblingIds = n :: out1.siblingIds := by
  cases r with
  | error e => simp [consSibling] at h
  | ok out1 =>
    refine ⟨out1, rfl, ?_, ?_⟩
    · simp only [consSibling] at h
      injection h with h
      rw [← h]
    · simp only [consSibling] at h
      injection h with h
      rw [← h]

/-- C4 (amended): placeholder ids come from one counter shared across
nesting levels; the counter never decreases, the blocks of any one
extraction level (sibling blocks) receive strictly increasing — hence
pairwise distinct — ids lying between the level's entry counter and the
final counter, and the first id handed out inside an invocation equals
the invocation's entry counter. Since a block's id is read before its
nested blocks are processed, that block shares its id with the first
block of its own nested extraction, whose record it overwrites (see the
counterexample). -/
theorem phraseStepStatic_ids (me : MathEval) (se : ScriptEval) (props : JSVal)
    (opts : Options) :
    ∀ (fuel : Nat) (call : PhraseCall) (out : PhraseOut),
      phraseStepStatic me se props opts fuel call = .ok out →
      call.stOf.nComputed ≤ out.st.nComputed ∧
      (∀ i ∈ out.siblingIds, call.stOf.nComputed ≤ i ∧ i < out.st.nComputed) ∧
      List.Chain' (· < ·) out.siblingIds ∧
      (out.siblingIds ≠ [] → out.siblingIds.head? = some call.stOf.nComputed) := by
  intro fuel
  induction fuel with
  | zero =>
    intro call out h
    simp [phraseStepStatic] at h
  | succ fuel ih =>
    intro call out h
    have keyStep : ∀ (stNext : PhraseSt) (n : Nat) (rest : List String) (b2 e2 : String),
        stNext.nComputed ≥ n + 1 →
        consSibling n (phraseStepStatic me se props opts fuel
          (.blocks rest b2 e2 stNext)) = .ok out →
        n ≤ out.st.nComputed ∧
        (∀ i ∈ out.siblingIds, n ≤ i ∧ i < out.st.nComputed) ∧
        List.Chain' (· < ·) out.siblingIds ∧
        (out.siblingIds ≠ [] → out.siblingIds.head? = some n) := by
      intro stNext n rest b2 e2 hge hc
      obtain ⟨out1, hout1, hst, hsib⟩ := consSibling_ok _ _ _ hc
      obtain ⟨m2, hbnd, hchain, hhead⟩ := ih _ _ hout1
      simp only [PhraseCall.stOf] at m2 hbnd
      rw [hst, hsib]
      refine ⟨by omega, ?_, ?_, by simp⟩
      · intro i hi
        simp only [List.mem_cons] at hi
        rcases hi with rfl | hi
        · exact ⟨Nat.le_refl _, by omega⟩
        · have := hbnd i hi
          exact ⟨by omega, by omega⟩
      · refine List.chain'_cons'.mpr ⟨?_, hchain⟩
        intro y hy
        have hmem : y ∈ out1.siblingIds := by
          cases hsib2 : out1.siblingIds with
          | nil => simp [hsib2] at hy
          | cons a l => rw [hsib2] at hy; simp at hy; subst hy; simp [hsib2]
        have := hbnd y hmem
        omega
    match call with
    | .phrase b e st =>
      rw [phraseStepStatic] at h
      have := ih _ _ h
      simpa [PhraseCall.stOf] using this
    | .blocks [] b e st =>
      rw [phraseStepStatic] at h
      injection h with h
      subst h
      refine ⟨Nat.le_refl _, by simp, by simp, by simp⟩
    | .blocks (tf :: rest) b e st =>
      rw [phraseStepStatic] at h
      split at h
      · -- formula-block branch
        split at h
        · exact absurd h (by simp)
        · rename_i inner hinner
          split at h
          · exact absurd h (by simp)
          · rename_i f1 hf1
            obtain ⟨m1, _, _, _⟩ := ih _ _ hinner
            simp only [PhraseCall.stOf] at m1
            exact keyStep _ st.nComputed rest _ _ (by simp [afterBlockSt]; omega) h
      · -- not a formula block
        split at h
        · -- script-block branch
          split at h
          · exact absurd h (by simp)
          · rename_i inner hinner
            split at h
            · exact absurd h (by simp)
            · rename_i v hv
              split at h
              · exact absurd h (by simp)
              · rename_i f1 hf1
                obtain ⟨m1, _, _, _⟩ := ih _ _ hinner
                simp only [PhraseCall.stOf] at m1
                exact keyStep _ st.nComputed rest _ _ (by simp [afterScriptSt]; omega) h
        · -- neither kind: only the counter advances
          exact keyStep _ st.nComputed rest _ _ (by simp) h

/-- The Formula produced for the single block of `${2}$`. -/
def c4Formula : Formula :=
  { raw := "2", result := .num 2, localVars := [], parsed := "2",
    hasDice := false, rolls := [], hidden := false, explanation := true }

/-- Concrete run for the C4 witness: the loop over the one extracted
block of `${2}$`. -/
def c4Call : PhraseCall :=
  .blocks [("$\x7b2\x7d$")] ("$\x7b2\x7d$") ("$\x7b2\x7d$") {}

/-- Its output. -/
def c4Out : PhraseOut :=
  { buildPhrase := "form0", expression := "2",
    st := { localVars := [], computedFormulas := [("form0", c4Formula)],
            nComputed := 1, trace := [⟨0, [], c4Formula⟩] },
    siblingIds := [0] }

/-- C4 witness: the amended id discipline applied to the concrete
one-block run. -/
theorem phraseStepStatic_ids_witness :
    c4Call.stOf.nComputed ≤ c4Out.st.nComputed ∧
    (∀ i ∈ c4Out.siblingIds, c4Call.stOf.nComputed ≤ i ∧ i < c4Out.st.nComputed) ∧
    List.Chain' (· < ·) c4Out.siblingIds ∧
    (c4Out.siblingIds ≠ [] → c4Out.siblingIds.head? = some c4Call.stOf.nComputed) :=
  phraseStepStatic_ids simpleEval noScriptEval (JSVal.obj []) {} 12 c4Call c4Out (by rfl)

/-! ## The property-convergence loop (`templateSystem._prepareEntityData`) -/

/-- `foundry.utils.setProperty`: walk the dotted path, creating nested
objects along the way, and set the final key. -/
def setPath : JSVal → List String → JSVal → JSVal
  | _, [], nv => nv
  | .obj fs, k :: ks, nv => .obj (objSet fs k (setPath (objGet fs k) ks nv))
  | _, k :: ks, nv => .obj (objSet [] k (setPath .undef ks nv))

/-- `foundry.utils.setProperty(v, key, nv)`. -/
def setProperty (v : JSVal) (key : String) (nv : JSVal) : JSVal :=
  setPath v (splitPathGo key.data []) nv

/-- `foundry.utils.mergeObject` with its default options: recursively
merge the right object into the left, inserting new keys and
overwriting existing ones. The fuel bounds the nesting depth; the
entity property bags nest at most a few levels (`table.row.field`), far
below the wrapper's allowance. -/
def deepMerge : Nat → JSVal → JSVal → JSVal
  | 0, _, w => w
  | fuel + 1, .obj a, .obj b =>
    .obj (b.foldl (fun acc kv =>
      objSet acc kv.1 (match objGet acc kv.1, kv.2 with
        | .obj x, .obj y => deepMerge fuel (.obj x) (.obj y)
        | _, w => w)) a)
  | _ + 1, _, w => w

/-- Depth-64 wrapper for `deepMerge`. -/
def deepMergeJ (a b : JSVal) : JSVal := deepMerge 64 a b

/-- The modifier table `modifierPropsByKey` with `applyModifiers`
(module/utils.js, outside the embedded sources): an external map from
property keys to value transformations, applied when a key has
modifiers. -/
def ModOracle : Type := String → Option (JSVal → JSVal)

/-- One row of the dynamic-table branch of the convergence loop: skip
deleted rows, compute the phrase against the row reference, apply
modifiers, and set the dotted path into the accumulator. -/
def computeRows (me : MathEval) (se : ScriptEval) (mods : ModOracle)
    (trig : Option TriggerEntity) (ak : List String) (props : JSVal)
    (tableKey field text : String) :
    List (String × JSVal) → JSVal → Except MathErr JSVal
  | [], acc => .ok acc
  | (rowKey, _) :: rest, acc =>
    if (objGet (getProperty props (tableKey ++ "." ++ rowKey)).fields ("deleted")).truthy then
      computeRows me se mods trig ak props tableKey field text rest acc
    else
      match computeMessageStatic me se text props
          { reference := .str (tableKey ++ "." ++ rowKey),
            availableKeys := some ak, triggerEntity := trig } with
      | .error e => .error e
      | .ok cp =>
        let path := tableKey ++ "." ++ rowKey ++ "." ++ field
        let v0 : JSVal := .str cp.result
        let v := match mods path with
          | some f => f v0
          | none => v0
        computeRows me se mods trig ak props tableKey field text rest
          (setProperty acc path v)

/-- One `try` body of the convergence loop for one property: the
dotted case iterates the table rows, the scalar case computes the
phrase directly; the result is the `newComputedRows` object. -/
def computePropOnce (me : MathEval) (se : ScriptEval) (mods : ModOracle)
    (trig : Option TriggerEntity) (ak : List String) (props : JSVal)
    (key text : String) : Except MathErr JSVal :=
  if key.data.contains '.' then
    let segs := splitPathGo key.data []
    let tableKey := segs.headD ""
    let field := ((segs.drop 1).headD ("undefined"))
    computeRows me se mods trig ak props tableKey field text
      (getProperty props tableKey).fields (.obj [])
  else
    match computeMessageStatic me se text props
        { availableKeys := some ak, triggerEntity := trig } with
    | .error e => .error e
    | .ok cp =>
      let v0 : JSVal := .str cp.result
      let v := match mods key with
        | some f => f v0
        | none => v0
      .ok (.obj [(key, v)])

/-- One full pass of the convergence loop: every remaining property is
attempted; successes are merged into the pass's `computedProps` and
dropped, unresolvable-reference failures are kept for the next pass,
any other failure propagates. -/
def convergePass (me : MathEval) (se : ScriptEval) (mods : ModOracle)
    (trig : Option TriggerEntity) (ak : List String) (props : JSVal) :
    List (String × String) → JSVal → List (String × String) →
    Except MathErr (JSVal × List (String × String))
  | [], computed, remaining => .ok (computed, remaining)
  | (key, text) :: rest, computed, remaining =>
    match computePropOnce me se mods trig ak props key text with
    | .error (.uncomputable _) =>
      convergePass me se mods trig ak props rest computed (remaining ++ [(key, text)])
    | .error (.other m) => .error (.other m)
    | .ok newRows =>
      convergePass me se mods trig ak props rest (deepMergeJ computed newRows) remaining

/-- Outcome of the convergence loop: the final property bag, the
properties still uncomputed when it stopped (a non-fatal warning lists
them when nonempty), and the number of passes run. -/
structure ConvergeResult where
  props : JSVal
  stuck : List (String × String)
  passes : Nat

/-- The do-while loop of `_prepareEntityData`: run a pass, merge its
results into the property bag, and loop while properties remain and
the pass resolved something. `none` marks fuel exhaustion, which the
termination theorem rules out for the wrapper's fuel. -/
def convergeGo (me : MathEval) (se : ScriptEval) (mods : ModOracle)
    (trig : Option TriggerEntity) (ak : List String) :
    Nat → JSVal → List (String × String) → Nat →
    Except MathErr (Option ConvergeResult)
  | 0, _, _, _ => .ok none
  | fuel + 1, props, uncomputed, passes =>
    match convergePass me se mods trig ak props uncomputed (.obj []) [] with
    | .error e => .error e
    | .ok (computed, remaining) =>
      let props2 := deepMergeJ props computed
      if !remaining.isEmpty && !computed.fields.isEmpty then
        convergeGo me se mods trig ak fuel props2 remaining (passes + 1)
      else
        .ok (some ⟨props2, remaining, passes + 1⟩)

/-- The convergence loop over the computable properties, with available
keys `Object.keys(computableProps)` and fuel that the termination
theorem shows sufficient. -/
def converge (me : MathEval) (se : ScriptEval) (mods : ModOracle)
    (trig : Option TriggerEntity) (props : JSVal)
    (computableProps : List (String × String)) :
    Except MathErr (Option ConvergeResult) :=
  convergeGo me se mods trig (computableProps.map Prod.fst)
    (computableProps.length + 1) props computableProps 0

/-! ## Claim C7 -/

theorem convergePass_counts (me : MathEval) (se : ScriptEval) (mods : ModOracle)
    (trig : Option TriggerEntity) (ak : List String) (props : JSVal) :
    ∀ (l : List (String × String)) (computed : JSVal)
      (remaining : List (String × String)) (c : JSVal) (r : List (String × String)),
      convergePass me se mods trig ak props l computed remaining = .ok (c, r) →
      r.length ≤ remaining.length + l.length ∧
      (c = computed ∨ r.length < remaining.length + l.length) := by
  intro l
  induction l with
  | nil =>
    intro computed remaining c r h
    rw [convergePass] at h
    injection h with h
    injection h with h1 h2
    subst h1
    subst h2
    simp
  | cons kv rest ih =>
    obtain ⟨key, text⟩ := kv
    intro computed remaining c r h
    rw [convergePass] at h
    split at h
    · -- uncomputable: kept for next pass
      have hr := ih _ _ _ _ h
      simp only [List.length_append, List.length_cons, List.length_nil] at hr ⊢
      constructor
      · omega
      · rcases hr.2 with h1 | h2
        · exact Or.inl h1
        · exact Or.inr (by omega)
    · exact absurd h (by simp)
    · -- success: dropped from the remaining set
      have hr := ih _ _ _ _ h
      simp only [List.length_cons] at hr ⊢
      exact ⟨by omega, Or.inr (by omega)⟩

theorem convergeGo_total (me : MathEval) (se : ScriptEval) (mods : ModOracle)
    (trig : Option TriggerEntity) (ak : List String) :
    ∀ (n : Nat) (props : JSVal) (l : List (String × String)) (passes : Nat),
      l.length ≤ n →
      convergeGo me se mods trig ak (n + 1) props l passes ≠ .ok none := by
  intro n
  induction n with
  | zero =>
    intro props l passes hlen h
    rw [convergeGo] at h
    split at h
    · simp at h
    · rename_i computed remaining hp
      have hc := convergePass_counts me se mods trig ak props l (.obj []) [] computed remaining hp
      split at h
      · rename_i hcond
        rcases hc.2 with h1 | h2
        · subst h1
          simp [JSVal.fields] at hcond
        · simp at h2
          omega
      · simp at h
  | succ n ih =>
    intro props l passes hlen h
    rw [convergeGo] at h
    split at h
    · simp at h
    · rename_i computed remaining hp
      have hc := convergePass_counts me se mods trig ak props l (.obj []) [] computed remaining hp
      split at h
      · rename_i hcond
        rcases hc.2 with h1 | h2
        · subst h1
          simp [JSVal.fields] at hcond
        · simp at h2
          exact ih _ _ _ (by omega) h
      · simp at h

/-- Projection of a convergence outcome onto decidable data: the final
scalar properties as strings, the stuck property names, and the pass
count. -/
def convergeView (r : Except MathErr (Option ConvergeResult)) :
    Option (Option (List (String × String) × List String × Nat)) :=
  (r.map (Option.map (fun cr =>
    (cr.props.fields.map (fun p => (p.1, jsValToString p.2)),
     cr.stuck.map Prod.fst, cr.passes)))).toOption

/-- C7: the property-convergence loop terminates for every input — the
fuel `|uncomputed| + 1` built into `converge` is never exhausted, since
a pass either resolves a property (shrinking the remaining set) or ends
the loop; properties `a = ${b}$` and `b = "2"` both resolve within two
passes with nothing stuck; mutually-referential `a = ${b}$` and
`b = ${a}$` resolve nothing on the first pass, so the loop stops after
one pass with both properties stuck, which is the condition for the
stuck-property warning. -/
theorem convergence_loop_behaviour :
    (∀ (me : MathEval) (se : ScriptEval) (mods : ModOracle)
       (trig : Option TriggerEntity) (props : JSVal) (l : List (String × String)),
       converge me se mods trig props l ≠ Except.ok none) ∧
    convergeView (converge simpleEval noScriptEval (fun _ => none) none (JSVal.obj [])
        [("a", "$\x7bb\x7d$"), ("b", "2")])
      = some (some ([("b", "2"), ("a", "2")], [], 2)) ∧
    convergeView (converge simpleEval noScriptEval (fun _ => none) none (JSVal.obj [])
        [("a", "$\x7bb\x7d$"), ("b", "$\x7ba\x7d$")])
      = some (some ([], ["a", "b"], 1)) ∧
    (["a", "b"] : List String) ≠ [] :=
  ⟨fun me se mods trig props l =>
     convergeGo_total me se mods trig (l.map Prod.fst) l.length props l 0
       (Nat.le_refl _),
   by decide!, by decide!, by decide⟩

/-! ## Claim C8, counterexample -/

/-- C8 counterexample: on the text `'X'a\'b'a\'b'` the first run
extracts the match `'a\'b'` but `String.replace` rewrites the first
*occurrence* of that text, which sits two characters earlier; the
output still contains an extractable literal, and a second run with the
produced map changes both the text and the map, refuting idempotence. -/
theorem handleTextVars_not_idempotent :
    handleTextVars (String.mk ['\'', 'X', '\'', 'a', '\\', '\'', 'b', '\'',
        'a', '\\', '\'', 'b', '\'']) []
      = (String.mk ['\'', 'X', '_', 'c', 'o', 'm', 'p', 'u', 't', 'e', 'd',
          'T', 'e', 'x', 't', '_', '1', 'a', '\\', '\'', 'b', '\''],
         [("_computedText_1", String.mk ['a', '\'', 'b'])]) ∧
    handleTextVars (String.mk ['\'', 'X', '_', 'c', 'o', 'm', 'p', 'u', 't',
        'e', 'd', 'T', 'e', 'x', 't', '_', '1', 'a', '\\', '\'', 'b', '\''])
      [("_computedText_1", String.mk ['a', '\'', 'b'])]
      = ("_computedText_2",
         [("_computedText_1", String.mk ['a', '\'', 'b']),
          ("_computedText_2", String.mk ['X', '_', 'c', 'o', 'm', 'p', 'u',
            't', 'e', 'd', 'T', 'e', 'x', 't', '_', '1', 'a', '\'', 'b'])]) ∧
    ("_computedText_2" : String)
      ≠ String.mk ['\'', 'X', '_', 'c', 'o', 'm', 'p', 'u', 't', 'e', 'd',
          'T', 'e', 'x', 't', '_', '1', 'a', '\\', '\'', 'b', '\''] :=
  ⟨rfl, rfl, by decide⟩

theorem digitsToNat_append_singleton (xs : List Char) (c : Char) :
    digitsToNat (xs ++ [c]) = digitsToNat xs * 10 + (c.toNat - 48) := by
  simp [digitsToNat, List.foldl_append]

theorem digitChar_toNat (n : Nat) (h : n < 10) : (digitChar n).toNat = 48 + n := by
  interval_cases n <;> decide

theorem natToStringGo_roundtrip :
    ∀ (fuel n : Nat), n < fuel → digitsToNat (natToStringGo fuel n) = n := by
  intro fuel
  induction fuel with
  | zero => intro n h; omega
  | succ fuel ih =>
    intro n h
    rw [natToStringGo]
    by_cases h10 : n < 10
    · simp only [if_pos h10]
      simp [digitsToNat, digitChar_toNat n h10]
    · simp only [if_neg h10]
      rw [digitsToNat_append_singleton]
      have hdiv : n / 10 < fuel := by
        have := Nat.div_lt_self (by omega : 0 < n) (by omega : 1 < 10)
        omega
      rw [ih (n / 10) hdiv, digitChar_toNat (n % 10) (Nat.mod_lt n (by omega))]
      omega

theorem natToString_injective (a b : Nat) (h : natToString a = natToString b) :
    a = b := by
  have hd : natToStringGo (a + 1) a = natToStringGo (b + 1) b := by
    have := congrArg String.data h
    simpa [natToString] using this
  have ha := natToStringGo_roundtrip (a + 1) a (Nat.lt_succ_self a)
  have hb := natToStringGo_roundtrip (b + 1) b (Nat.lt_succ_self b)
  rw [← ha, ← hb, hd]

/-- Adjacent backslash-quote pair somewhere in the text. -/
def hasEscapedQuote : List Char → Bool
  | [] => false
  | [_] => false
  | a :: b :: rest => (a = '\\' && b = '\'') || hasEscapedQuote (b :: rest)

theorem hasEscapedQuote_cons (x : Char) (ys : List Char)
    (h : hasEscapedQuote ys = true) : hasEscapedQuote (x :: ys) = true := by
  cases ys with
  | nil => simp [hasEscapedQuote] at h
  | cons b rest =>
    rw [hasEscapedQuote]
    simp [h]

theorem hasEscapedQuote_append_right (xs ys : List Char)
    (h : hasEscapedQuote ys = true) : hasEscapedQuote (xs ++ ys) = true := by
  induction xs with
  | nil => simpa using h
  | cons x t ih => exact hasEscapedQuote_cons x (t ++ ys) ih

theorem hasEscapedQuote_append_left (xs ys : List Char)
    (h : hasEscapedQuote xs = true) : hasEscapedQuote (xs ++ ys) = true := by
  induction xs with
  | nil => simp [hasEscapedQuote] at h
  | cons x t ih =>
    cases t with
    | nil => simp [hasEscapedQuote] at h
    | cons b rest =>
      rw [hasEscapedQuote] at h
      rcases Bool.or_eq_true_iff.mp h with h1 | h2
      · show hasEscapedQuote (x :: b :: (rest ++ ys)) = true
        rw [hasEscapedQuote]
        simp [Bool.and_eq_true_iff.mp h1]
      · exact hasEscapedQuote_cons x ((b :: rest) ++ ys) (ih h2)

theorem closeSplit_content_quote :
    ∀ (prev : Char) (cs content after : List Char),
      closeSplit prev cs = some (content, after) →
      content.contains '\'' = true →
      hasEscapedQuote content = true ∨ (prev = '\\' ∧ content.head? = some '\'') := by
  intro prev cs
  induction cs generalizing prev with
  | nil => intro content after h; simp [closeSplit] at h
  | cons c t ih =>
    intro content after h hq
    rw [closeSplit] at h
    by_cases h1 : c = '\'' ∧ prev ≠ '\\'
    · rw [if_pos h1] at h
      injection h with h
      injection h with h2 h3
      subst h2
      simp [List.contains] at hq
    · rw [if_neg h1] at h
      by_cases h2 : c = '\n' ∨ c = '\r'
      · rw [if_pos h2] at h
        exact absurd h (by simp)
      · rw [if_neg h2] at h
        cases hsp : closeSplit c t with
        | none => rw [hsp] at h; simp at h
        | some p =>
          obtain ⟨content2, after2⟩ := p
          rw [hsp] at h
          simp only [Option.map_some'] at h
          injection h with h
          injection h with h3 h4
          subst h3
          subst h4
          by_cases hc : c = '\''
          · -- non-boundary quote: prev must be a backslash
            have hprev : prev = '\\' := by
              by_contra hp
              exact h1 ⟨hc, hp⟩
            exact Or.inr ⟨hprev, by simp [hc]⟩
          · -- the quote lies deeper in the content
            have hq2 : content2.contains '\'' = true := by
              simp [List.contains] at hq ⊢
              rcases hq with hq | hq
              · exact absurd hq.symm hc
              · simpa [List.elem_iff] using hq
            rcases ih c content2 after2 hsp hq2 with hl | hr
            · exact Or.inl (hasEscapedQuote_cons c content2 hl)
            · obtain ⟨hcb, hh⟩ := hr
              subst hcb
              cases content2 with
              | nil => simp at hh
              | cons d rest2 =>
                simp at hh
                subst hh
                exact Or.inl (by rw [hasEscapedQuote]; simp)

theorem quoteMatchesGo_inner_quote :
    ∀ (fuel : Nat) (prev : Char) (cs m : List Char),
      m ∈ quoteMatchesGo fuel prev cs →
      ((m.drop 1).dropLast).contains '\'' = true →
      hasEscapedQuote cs = true := by
  intro fuel
  induction fuel with
  | zero => intro prev cs m h; simp [quoteMatchesGo] at h
  | succ fuel ih =>
    intro prev cs m h hq
    match cs with
    | [] => simp [quoteMatchesGo] at h
    | c :: rest =>
      rw [quoteMatchesGo] at h
      by_cases h1 : c = '\'' ∧ prev ≠ '\\'
      · rw [if_pos h1] at h
        cases hsp : closeSplit '\'' rest with
        | some p =>
          obtain ⟨content, after⟩ := p
          rw [hsp] at h
          simp only [List.mem_cons] at h
          have hstruct := closeSplit_structure '\'' rest content after hsp
          rcases h with rfl | h
          · -- the head match itself
            have hinner : ((('\'' :: (content ++ ['\''])).drop 1).dropLast) = content := by
              simp [List.dropLast_concat]
            rw [hinner] at hq
            rcases closeSplit_content_quote '\'' rest content after hsp hq with he | hr
            · refine hasEscapedQuote_cons c _ ?_
              rw [hstruct]
              exact hasEscapedQuote_append_left _ _ he
            · simp at hr
          · -- a later match
            have := ih '\'' after m h hq
            refine hasEscapedQuote_cons c _ ?_
            rw [hstruct]
            refine hasEscapedQuote_append_right _ _ ?_
            exact hasEscapedQuote_cons _ _ this
        | none =>
          rw [hsp] at h
          cases hdw : rest.dropWhile (fun d => ¬(d = '\n' ∨ d = '\r')) with
          | nil => rw [hdw] at h; simp at h
          | cons d tail =>
            rw [hdw] at h
            have := ih d tail m h hq
            have hsuf : ∃ pre, rest = pre ++ (d :: tail) := by
              refine ⟨rest.takeWhile (fun d => ¬(d = '\n' ∨ d = '\r')), ?_⟩
              rw [← hdw]
              exact (List.takeWhile_append_dropWhile _ _).symm
            obtain ⟨pre, hpre⟩ := hsuf
            refine hasEscapedQuote_cons c _ ?_
            rw [hpre]
            refine hasEscapedQuote_append_right _ _ ?_
            exact hasEscapedQuote_cons _ _ this
      · rw [if_neg h1] at h
        exact hasEscapedQuote_cons c rest (ih c rest m h hq)

theorem objSet_fresh {α : Type _} (fields : List (String × α)) (k : String) (v : α)
    (h : ∀ p ∈ fields, p.1 ≠ k) : objSet fields k v = fields ++ [(k, v)] := by
  rw [objSet]
  have hfalse : fields.any (fun p => p.fst = k) = false := by
    rw [List.any_eq_false]
    intro p hp
    simpa using h p hp
  simp [hfalse]

/-- Canonical isolator maps: the entry at offset `t` from base `i` is
named `_computedText_(i+t+1)`. -/
def canonicalFrom : Nat → List (String × String) → Bool
  | _, [] => true
  | i, p :: rest =>
    (p.1 == "_computedText_" ++ natToString (i + 1)) && canonicalFrom (i + 1) rest

theorem canonicalFrom_keys :
    ∀ (m : List (String × String)) (i : Nat), canonicalFrom i m = true →
      ∀ p ∈ m, ∃ j, i + 1 ≤ j ∧ j ≤ i + m.length ∧
        p.1 = "_computedText_" ++ natToString j := by
  intro m
  induction m with
  | nil => intro i h p hp; simp at hp
  | cons q rest ih =>
    intro i h p hp
    rw [canonicalFrom] at h
    obtain ⟨h1, h2⟩ := Bool.and_eq_true_iff.mp h
    rcases List.mem_cons.mp hp with rfl | hp2
    · exact ⟨i + 1, Nat.le_refl _, by simp only [List.length_cons]; omega, by simpa using h1⟩
    · obtain ⟨j, hj1, hj2, hj3⟩ := ih (i + 1) h2 p hp2
      exact ⟨j, by omega, by simp only [List.length_cons]; omega, hj3⟩

theorem prefixed_natToString_inj (j n : Nat)
    (h : "_computedText_" ++ natToString j = "_computedText_" ++ natToString n) :
    j = n := by
  have hd := congrArg String.data h
  simp only [String.data_append] at hd
  have hlist : (natToString j).data = (natToString n).data :=
    List.append_cancel_left hd
  have hgo : natToStringGo (j + 1) j = natToStringGo (n + 1) n := hlist
  have ha := natToStringGo_roundtrip (j + 1) j (Nat.lt_succ_self j)
  have hb := natToStringGo_roundtrip (n + 1) n (Nat.lt_succ_self n)
  rw [← ha, ← hb, hgo]

theorem canonicalFrom_fresh (m : List (String × String)) (i n : Nat)
    (h : canonicalFrom i m = true) (hn : i + m.length < n) :
    ∀ p ∈ m, p.1 ≠ "_computedText_" ++ natToString n := by
  intro p hp he
  obtain ⟨j, hj1, hj2, hj3⟩ := canonicalFrom_keys m i h p hp
  rw [hj3] at he
  have := prefixed_natToString_inj j n he
  omega

theorem canonicalFrom_snoc :
    ∀ (m : List (String × String)) (i : Nat), canonicalFrom i m = true →
      ∀ v, canonicalFrom i
        (m ++ [("_computedText_" ++ natToString (i + m.length + 1), v)]) = true := by
  intro m
  induction m with
  | nil => intro i h v; simp [canonicalFrom]
  | cons q rest ih =>
    intro i h v
    rw [canonicalFrom] at h
    obtain ⟨h1, h2⟩ := Bool.and_eq_true_iff.mp h
    have := ih (i + 1) h2 v
    rw [List.cons_append, canonicalFrom]
    refine Bool.and_eq_true_iff.mpr ⟨h1, ?_⟩
    have harith : i + 1 + rest.length + 1 = i + (q :: rest).length + 1 := by
      simp
      omega
    rw [← harith]
    exact this

theorem handleTextVarsFold_extends :
    ∀ (ms : List (List Char)) (f : String) (m2 : List (String × String)),
      canonicalFrom 0 m2 = true →
      ∃ new, (ms.foldl handleTextVarsStep (f, m2)).2 = m2 ++ new ∧
        canonicalFrom 0 (m2 ++ new) = true := by
  intro ms
  induction ms with
  | nil =>
    intro f m2 h
    exact ⟨[], by simp, by simpa using h⟩
  | cons mt rest ih =>
    intro f m2 h
    rw [List.foldl_cons]
    by_cases hq : ((mt.drop 1).dropLast).contains '\'' = true
    · have hstep : handleTextVarsStep (f, m2) mt =
          (jsReplaceFirst f (String.mk mt) ("_computedText_" ++ natToString (m2.length + 1)),
           m2 ++ [("_computedText_" ++ natToString (m2.length + 1),
             String.mk (jsReplaceFirstL ((mt.drop 1).dropLast) ['\\'] []))]) := by
        rw [handleTextVarsStep]
        simp only [hq, if_pos]
        rw [objSet_fresh]
        exact canonicalFrom_fresh m2 0 (m2.length + 1) h (by omega)
      rw [hstep]
      have hcan2 : canonicalFrom 0 (m2 ++ [("_computedText_" ++ natToString (m2.length + 1),
          String.mk (jsReplaceFirstL ((mt.drop 1).dropLast) ['\\'] []))]) = true := by
        have := canonicalFrom_snoc m2 0 h
          (String.mk (jsReplaceFirstL ((mt.drop 1).dropLast) ['\\'] []))
        simpa using this
      obtain ⟨new, hnew, hcan⟩ := ih _ _ hcan2
      refine ⟨[("_computedText_" ++ natToString (m2.length + 1),
        String.mk (jsReplaceFirstL ((mt.drop 1).dropLast) ['\\'] []))] ++ new, ?_, ?_⟩
      · rw [hnew]
        simp
      · rw [← List.append_assoc]
        exact hcan
    · have hstep : handleTextVarsStep (f, m2) mt = (f, m2) := by
        rw [handleTextVarsStep]
        simp only [hq, Bool.false_eq_true, if_false]
      rw [hstep]
      exact ih f m2 h

theorem handleTextVarsFold_id :
    ∀ (ms : List (List Char)) (st : String × List (String × String)),
      (∀ mt ∈ ms, ((mt.drop 1).dropLast).contains '\'' = false) →
      ms.foldl handleTextVarsStep st = st := by
  intro ms
  induction ms with
  | nil => intro st _; rfl
  | cons mt rest ih =>
    intro st h
    rw [List.foldl_cons]
    have hstep : handleTextVarsStep st mt = st := by
      rw [handleTextVarsStep]
      simp only [h mt (by simp), Bool.false_eq_true, if_false]
    rw [hstep]
    exact ih st (fun x hx => h x (by simp [hx]))

/-- C8 (amended): the isolator is not idempotent in general (see the
counterexample), but (1) starting from a canonically-numbered map
(`_computedText_(i+1)` at index `i`, as every map the isolator itself
builds from `[]` is) a run only appends fresh entries, never
overwriting, and keeps the map canonical; (2) a text none of whose
single-quoted matches contains an embedded quote is left completely
untouched, map included; (3) in particular any text with no
backslash-quote pair at all is a fixed point. -/
theorem handleTextVars_behaviour :
    (∀ (formula : String) (m : List (String × String)),
      canonicalFrom 0 m = true →
      ∃ new, (handleTextVars formula m).2 = m ++ new ∧
        canonicalFrom 0 (m ++ new) = true) ∧
    (∀ (formula : String) (m : List (String × String)),
      (∀ mt ∈ quoteMatches formula, ((mt.drop 1).dropLast).contains '\'' = false) →
      handleTextVars formula m = (formula, m)) ∧
    (∀ (formula : String) (m : List (String × String)),
      hasEscapedQuote formula.data = false →
      handleTextVars formula m = (formula, m)) := by
  refine ⟨?_, ?_, ?_⟩
  · intro formula m h
    exact handleTextVarsFold_extends (quoteMatches formula) formula m h
  · intro formula m h
    exact handleTextVarsFold_id (quoteMatches formula) (formula, m) h
  · intro formula m h
    refine handleTextVarsFold_id (quoteMatches formula) (formula, m) ?_
    intro mt hmt
    by_contra hq
    simp only [Bool.not_eq_false] at hq
    rw [quoteMatches] at hmt
    have := quoteMatchesGo_inner_quote formula.data.length (Char.ofNat 0)
      formula.data mt hmt hq
    rw [this] at h
    exact Bool.true_eq_false.mp h

theorem handleTextVars_behaviour_witness :
    (∃ new, (handleTextVars (String.mk ['\'', 'a', '\\', '\'', 'b', '\'']) []).2
        = [] ++ new ∧ canonicalFrom 0 ([] ++ new) = true) ∧
    handleTextVars (String.mk ['x', '\'', 'a', 'b', '\'', 'y']) [("_computedText_1", "q")]
      = (String.mk ['x', '\'', 'a', 'b', '\'', 'y'], [("_computedText_1", "q")]) ∧
    handleTextVars ("x_computedText_1y") [("_computedText_1", "q")]
      = ("x_computedText_1y", [("_computedText_1", "q")]) :=
  ⟨handleTextVars_behaviour.1 (String.mk ['\'', 'a', '\\', '\'', 'b', '\'']) [] (by decide),
   handleTextVars_behaviour.2.1 (String.mk ['x', '\'', 'a', 'b', '\'', 'y'])
     [("_computedText_1", "q")] (by decide),
   handleTextVars_behaviour.2.2 ("x_computedText_1y") [("_computedText_1", "q")] (by decide)⟩

/-! ## The dynamic computation path: `Formula.compute`,
`ComputablePhrase.compute` and `evaluateRoll`

The async path adds user-input templates (`?#\x7b...\x7d`), user-input
prompts (`?\x7b...\x7d`) and roll blocks (`[...]`) on top of the static
evaluation. Dialog rendering, the Foundry Roll API, roll tables and the
template item registry are external facilities, abstracted as oracles;
everything else (scanners, regex group parsers, string rewriting, state
threading) is translated from the source. -/

/-- `String.replace(pattern, fn)` with a function replacement: the
inserted text is spliced literally, without `$`-substitution (used by
the source exactly where the inserted text may contain `$` or `'`). -/
def jsReplaceFirstFn (hay pat rep : String) : String :=
  match findSub hay.data pat.data with
  | none => hay
  | some i =>
    String.mk (hay.data.take i ++ rep.data ++ hay.data.drop (i + pat.data.length))

/-- `Array.prototype.join(', ')`. -/
def joinComma : List String → String
  | [] => ""
  | [s] => s
  | s :: rest => s ++ ", " ++ joinComma rest

/-- `String.prototype.split('|')` on a character list. -/
def splitPipe : List Char → List (List Char)
  | [] => [[]]
  | c :: rest =>
    if c = '|' then [] :: splitPipe rest
    else
      match splitPipe rest with
      | g :: gs => (c :: g) :: gs
      | [] => [[c]]

/-- Lazy scan `.*?c` for a closing character: the shortest prefix up to
`close`, failing on a line terminator (the dot does not cross lines) or
at end of input. Returns the inner text and the rest after `close`. -/
def lazyCloseGo (close : Char) : List Char → Option (List Char × List Char)
  | [] => none
  | c :: cs =>
    if c = close then some ([], cs)
    else if c = '\n' then none
    else
      match lazyCloseGo close cs with
      | some (inner, rest) => some (c :: inner, rest)
      | none => none

/-- `matchAll` for the delimiter patterns `\?#\x7b.*?\x7d`,
`\?\x7b.*?\x7d` and `:(.*?):`: at each position try the literal opening
followed by the lazy close; a successful match resumes after its end, a
failed opening advances one character. The fuel only eliminates the
structural recursion (`length + 1` always suffices). -/
def scanDelim (openPat : List Char) (close : Char) : Nat → List Char → List (List Char)
  | 0, _ => []
  | fuel + 1, s =>
    if startsWithL s openPat then
      match lazyCloseGo close (s.drop openPat.length) with
      | some (inner, rest) =>
        (openPat ++ inner ++ [close]) :: scanDelim openPat close fuel rest
      | none =>
        match s with
        | [] => []
        | _ :: t => scanDelim openPat close fuel t
    else
      match s with
      | [] => []
      | _ :: t => scanDelim openPat close fuel t

/-- The bracketed unit `\[[^\[\]]+\]` of the roll pattern: an opening
bracket, a non-empty greedy run of non-bracket characters, a closing
bracket. -/
def brUnit (s : List Char) : Option (List Char × List Char) :=
  match s with
  | '[' :: t =>
    let cls := t.takeWhile (fun c => ¬(c = '[' ∨ c = ']'))
    let rest := t.drop cls.length
    if cls ≠ [] ∧ rest.head? = some ']' then some ('[' :: cls ++ [']'], rest.drop 1)
    else none
  | _ => none

/-- After one repetition unit of the roll pattern: the lazy `+?` first
tries to close with `\]`, otherwise continues with further units. -/
def rollTryUnit (next : List Char → Option (List Char × List Char))
    (u rest : List Char) : Option (List Char × List Char) :=
  match rest with
  | ']' :: r2 => some (u ++ [']'], r2)
  | _ =>
    match next rest with
    | some (m, r) => some (u ++ m, r)
    | none => none

/-- The ordered alternatives for one unit `(:?\[[^\[\]]+\]|.)`: the
optional-colon bracketed unit (greedy `:?` prefers the colon), then the
bracketed unit alone, then any single non-newline character. -/
def rollUnitCands (s : List Char) : List (List Char × List Char) :=
  (match s with
   | ':' :: t =>
     match brUnit t with
     | some (u, rest) => [((':' :: u), rest)]
     | none => []
   | _ => []) ++
  (match brUnit s with
   | some (u, rest) => [(u, rest)]
   | none => []) ++
  (match s with
   | c :: rest => if c = '\n' then [] else [([c], rest)]
   | [] => [])

/-- Backtracking over the unit alternatives in preference order. -/
def rollTryCands (next : List Char → Option (List Char × List Char)) :
    List (List Char × List Char) → Option (List Char × List Char)
  | [] => none
  | (u, rest) :: more =>
    match rollTryUnit next u rest with
    | some r => some r
    | none => rollTryCands next more

/-- Body of a roll match after the opening `\[`: at least one unit,
lazily extended until the closing `\]`. -/
def rollBody : Nat → List Char → Option (List Char × List Char)
  | 0, _ => none
  | fuel + 1, s => rollTryCands (rollBody fuel) (rollUnitCands s)

/-- `matchAll` for the roll pattern `\[(:?\[[^\[\]]+\]|.)+?\]`. -/
def scanRolls : Nat → List Char → List (List Char)
  | 0, _ => []
  | fuel + 1, s =>
    match s with
    | [] => []
    | c :: rest =>
      if c = '[' then
        match rollBody (rest.length + 1) rest with
        | some (m, r) => ('[' :: m) :: scanRolls fuel r
        | none => scanRolls fuel rest
      else scanRolls fuel rest

/-- Groups of `userInputDisplayRegex`
`/^(?<name>.+?)(:(?<displayName>.+?))?(\[(?<type>.+?)])?$/`. -/
structure DisplayGroups where
  name : String
  displayName : Option String
  type : Option String

/-- The anchored tail `(\[(?<type>.+?)])?$`: either nothing remains, or
the remainder is `[` … `]` with a non-empty newline-free type between
(the closing bracket is forced to the very end by the anchor). -/
def parseTypeEnd (rest2 : List Char) : Option (Option String) :=
  match rest2 with
  | [] => some none
  | '[' :: t =>
    if t.length < 2 then none
    else if ¬(t.getLast? = some ']') then none
    else if (t.take (t.length - 1)).any (fun c => c = '\n') then none
    else some (some (String.mk (t.take (t.length - 1))))
  | _ => none

/-- The optional display-name group: lazy growth of `(?<displayName>.+?)`
with the type tail tried after every extension. -/
def dnLoop : Nat → List Char → List Char → Option (String × Option String)
  | 0, _, _ => none
  | fuel + 1, dnRev, rem =>
    match rem with
    | [] => none
    | c :: rem2 =>
      if c = '\n' then none
      else
        match parseTypeEnd rem2 with
        | some ty => some (String.mk (c :: dnRev).reverse, ty)
        | none => dnLoop fuel (c :: dnRev) rem2

/-- Lazy growth of `(?<name>.+?)`: after each extension first try the
display-name group (present first, preferring the shortest), then the
type tail with the group absent, then extend the name. -/
def nameLoop : Nat → List Char → List Char → Option DisplayGroups
  | 0, _, _ => none
  | fuel + 1, nameRev, rem =>
    match rem with
    | [] => none
    | c :: rem2 =>
      if c = '\n' then none
      else
        match (match rem2 with
               | ':' :: r3 => dnLoop (r3.length + 1) [] r3
               | _ => none) with
        | some (dn, ty) => some ⟨String.mk (c :: nameRev).reverse, some dn, ty⟩
        | none =>
          match parseTypeEnd rem2 with
          | some ty => some ⟨String.mk (c :: nameRev).reverse, none, ty⟩
          | none => nameLoop fuel (c :: nameRev) rem2

/-- `userInputDisplayRegex.exec` (`none` models the `exec` returning
`null`, on which the source's `.groups` access throws). -/
def execDisplay (s : List Char) : Option DisplayGroups :=
  nameLoop (s.length + 1) [] s

/-- The anchored tail `(,(?<value>".+?"|.+?))?$` of
`userInputValuesRegex`: absent on empty input; after a comma the value
group captures the whole newline-free remainder (the anchor forces both
alternatives to the end). -/
def valueEnd (rest : List Char) : Option (Option String) :=
  match rest with
  | [] => some none
  | ',' :: r =>
    if r = [] then none
    else if r.any (fun c => c = '\n') then none
    else some (some (String.mk r))
  | _ => none

/-- The quoted key alternative `".+?"`: lazy growth of the inner text,
trying the value tail after each closing quote encountered. -/
def qKeyLoop : Nat → List Char → List Char → Option (String × Option String)
  | 0, _, _ => none
  | fuel + 1, innerRev, rem =>
    match rem with
    | [] => none
    | c :: rem2 =>
      if c = '\n' then none
      else
        match rem2 with
        | '"' :: r3 =>
          match valueEnd r3 with
          | some v => some (String.mk ('"' :: ((c :: innerRev).reverse ++ ['"'])), v)
          | none => qKeyLoop fuel (c :: innerRev) rem2
        | _ => qKeyLoop fuel (c :: innerRev) rem2

/-- The plain key alternative `.+?`: lazy growth with the value tail
tried after each extension. -/
def plainKeyLoop : Nat → List Char → List Char → Option (String × Option String)
  | 0, _, _ => none
  | fuel + 1, keyRev, rem =>
    match rem with
    | [] => none
    | c :: rem2 =>
      if c = '\n' then none
      else
        match valueEnd rem2 with
        | some v => some (String.mk (c :: keyRev).reverse, v)
        | none => plainKeyLoop fuel (c :: keyRev) rem2

/-- `userInputValuesRegex.exec`: the quoted key alternative is
exhausted before the plain one; the captured key keeps its quotes. -/
def execValues (s : List Char) : Option (String × Option String) :=
  match (match s with
         | '"' :: t => qKeyLoop (t.length + 1) [] t
         | _ => none) with
  | some r => some r
  | none => plainKeyLoop (s.length + 1) [] s

/-- Outcome of `evaluateRoll`: a roll-table draw carries a `results`
array (always truthy, even when empty) whose entries provide chat
texts; a plain roll carries the evaluated Roll object. -/
inductive RollEval where
  | drawn (chatTexts : List String)
  | rolled (roll : RollApiResult)

/-- One computed entry of a prompt's choice list. -/
structure ChoiceVal where
  name : JSVal
  displayValue : JSVal

/-- One entry of `allUserVars`, describing a user-input prompt for the
dialog. -/
structure UserInput where
  name : String
  displayName : JSVal
  type : String
  choices : Bool
  defaultValue : JSVal := .undef
  values : List ChoiceVal := []

/-- Oracles for the external facilities of the dynamic path: the math
library, the script runner, the user-input template items together with
the values their dialog resolves to (`none`: no item of that name, the
warn-only branch), the user-input dialog, the Foundry Roll API, and
roll-table draws (second argument: the total of the selector roll, if
any; `none` as result: no table of that name, on which the source's
`draw` call on `undefined` throws). -/
structure AsyncEnv where
  me : MathEval
  se : ScriptEval
  templateUserData : String → Option (List (String × JSVal))
  userDialog : List UserInput → List (String × JSVal)
  rollApi : String → RollApiResult
  tableDraw : String → Option JSVal → Option (List String)

/-- Ghost record of one block of the dynamic phrase loop (specification
only): the numeric part of its placeholder id, the local-variable scope
passed to its Formula computation, the stored Formula, and which branch
produced it. -/
structure ATrace where
  computedId : Nat
  usedLocalVars : List (String × JSVal)
  formula : Formula
  isScript : Bool

/-- Closure state of the dynamic `processFormulas`. -/
structure APhraseSt where
  localVars : List (String × JSVal) := []
  computedFormulas : List (String × Formula) := []
  nComputed : Nat := 0
  trace : List ATrace := []

/-- Result of a dynamic `processFormulas` invocation. -/
structure APhraseOut where
  buildPhrase : String
  expression : String
  st : APhraseSt

/-- Work items of the dynamic interpreter: the phrase loop
(`ComputablePhrase.compute` / its `processFormulas`), `Formula.compute`,
the prompt loop and its choice sub-loop, the roll loop, `evaluateRoll`,
and `computeRollPhrase`. Each carries the `props`/`options` of its
source invocation. -/
inductive ACall where
  | phraseA (buildPhrase expression : String) (st : APhraseSt) (props : JSVal) (opts : Options)
  | blocksA (bs : List String) (buildPhrase expression : String) (st : APhraseSt)
      (props : JSVal) (opts : Options)
  | computeF (f : Formula) (props : JSVal) (opts : Options)
  | promptsA (ms : List (List Char)) (formula : String) (acc : List UserInput)
      (props : JSVal) (opts : Options)
  | choicesA (cs : List (List Char)) (acc : List ChoiceVal) (props : JSVal) (opts : Options)
  | rollsA (ms : List (List Char)) (formula : String) (acc : List RollRecord)
      (props : JSVal) (opts : Options)
  | evalRollA (rollText : String) (props : JSVal) (opts : Options)
  | rollPhraseA (text : String) (props : JSVal) (opts : Options)

/-- Results of the dynamic interpreter, one constructor per work-item
family. -/
inductive ARes where
  | phr (out : APhraseOut)
  | fml (f : Formula)
  | pr (formula : String) (acc : List UserInput)
  | ch (acc : List ChoiceVal)
  | rl (formula : String) (acc : List RollRecord)
  | rr (r : RollEval)
  | ph (res : String)

/-- The `?#\x7b...\x7d` user-input template loop of `Formula.compute`:
for each match, look the template item up by name; when found, merge
the dialog's values into the local variables; in every case replace the
first occurrence of the token by the quoted template name and force the
hidden flag. -/
def templateLoopGo (env : AsyncEnv) :
    List (List Char) → String → List (String × JSVal) → Bool →
    String × List (String × JSVal) × Bool
  | [], f, lv, hid => (f, lv, hid)
  | m :: ms, f, lv, hid =>
    let name := String.mk ((m.drop 3).dropLast)
    let lv2 :=
      match env.templateUserData name with
      | some ud => objMerge lv ud
      | none => lv
    templateLoopGo env ms
      (jsReplaceFirst f (String.mk m) ("\"" ++ name ++ "\"")) lv2 true

/-- Assembly of one `userInputSettings` record: with more than one
choice the values are kept, otherwise the single optional choice's name
becomes the default value. -/
def mkUserInput (name : String) (displayName : JSVal) (ty : String)
    (values : List ChoiceVal) : UserInput :=
  if values.length > 1 then
    { name := name, displayName := displayName, type := ty, choices := true,
      values := values }
  else
    { name := name, displayName := displayName, type := ty, choices := false,
      defaultValue := ((values.head?).map (fun c => c.name)).getD .undef }

/-- Colon-parameter substitution of `computeRollPhrase`: every `:X:`
match becomes `$\x7bX\x7d$` by a function replacement (first occurrence,
no `$`-substitution). -/
def colonSubst : List (List Char) → String → String
  | [], t => t
  | m :: ms, t =>
    colonSubst ms (jsReplaceFirstFn t (String.mk m)
      ("$\x7b" ++ String.mk ((m.drop 1).dropLast) ++ "\x7d$"))

/-- The `result` getter applied to a dynamic phrase outcome: the build
phrase with every placeholder id replaced by its Formula's result
(empty when nullish). -/
def aPhraseResult (out : APhraseOut) : String :=
  out.st.computedFormulas.foldl
    (fun phrase kv =>
      jsReplaceAll phrase kv.1
        (if kv.2.result.isNullish then "" else jsValToString kv.2.result))
    out.buildPhrase

/-- `if (formula.startsWith('#')) this._hidden = true`. -/
def sigilHidden (old : Bool) (t : List Char) : Bool :=
  if startsWithL t ['#'] then true else old

/-- `if (formula.startsWith('!')) this._explanation = false`. -/
def sigilExplanation (old : Bool) (t : List Char) : Bool :=
  if startsWithL t ['!'] then false else old

/-- The text after the hidden-sigil strip. -/
def afterHash (t : List Char) : List Char :=
  if startsWithL t ['#'] then t.drop 1 else t

/-- The text after the suppress-explanation strip. -/
def afterBang (t : List Char) : List Char :=
  if startsWithL t ['!'] then t.drop 1 else t

/-- The dynamic interpreter, one fuel-indexed step function covering the
mutually recursive source procedures. `.phraseA`/`.blocksA` are the
dynamic `processFormulas` (extraction, then the loop over blocks, with
the same pre-recursion id read and shared counter as the static
variant; the script branch again does not merge local variables back).
`.computeF` is `Formula.compute`: isolate text literals, strip the `#`
sigil then the `!` sigil, run the template loop, the prompt loop and
the roll loop on the successively rewritten formula (each `matchAll`
snapshot is taken when the loop starts), then delegate to
`Formula.computeStatic` with the accumulated local variables, text
variables and rolls, merging the trigger entity's props over the given
props. `.evalRollA` is `evaluateRoll` with the roll-table (`#`) prefix
handling and the two-limit `|` split; `.rollPhraseA` is
`computeRollPhrase`. -/
def astep (env : AsyncEnv) : Nat → ACall → Except MathErr ARes
  | 0, _ => .error (.other "out of fuel")
  | fuel + 1, .phraseA buildPhrase expression st props opts =>
    astep env fuel (.blocksA (extractFormulas expression) buildPhrase expression st props opts)
  | _ + 1, .blocksA [] b e st _ _ => .ok (.phr ⟨b, e, st⟩)
  | fuel + 1, .blocksA (tf :: rest) b e st props opts =>
    if startsWithL tf.data ['$', '\x7b'] && endsWithL tf.data ['\x7d', '$'] then
      match astep env fuel (.phraseA (innerOf tf) (innerOf tf) st props opts) with
      | .ok (.phr inner) =>
        match astep env fuel (.computeF { raw := inner.expression } props
            (blockOptions opts inner.st.localVars)) with
        | .ok (.fml f1) =>
          astep env fuel (.blocksA rest
            (jsReplaceFirst b tf (formId st.nComputed))
            (jsReplaceFirst e tf (jsValToString f1.result))
            { localVars := objMerge inner.st.localVars f1.localVars,
              computedFormulas := objSet inner.st.computedFormulas (formId st.nComputed) f1,
              nComputed := inner.st.nComputed + 1,
              trace := inner.st.trace ++
                [⟨st.nComputed, opts.localVars.getD inner.st.localVars, f1, false⟩] }
            props opts)
        | .ok _ => .error (.other "unexpected result")
        | .error err => .error err
      | .ok _ => .error (.other "unexpected result")
      | .error err => .error err
    else if startsWithL tf.data ['%', '\x7b'] && endsWithL tf.data ['\x7d', '%'] then
      match astep env fuel (.phraseA (innerOf tf) (innerOf tf) st props opts) with
      | .ok (.phr inner) =>
        match scriptOutcome opts (env.se inner.expression opts.triggerEntity opts.linkedEntity) with
        | .error err => .error err
        | .ok v =>
          match astep env fuel (.computeF { raw := scriptResultRaw v } props
              (blockOptions opts inner.st.localVars)) with
          | .ok (.fml f1) =>
            astep env fuel (.blocksA rest
              (jsReplaceFirst b tf (formId st.nComputed))
              (jsReplaceFirst e tf (scriptResultRaw v))
              { localVars := inner.st.localVars,
                computedFormulas := objSet inner.st.computedFormulas (formId st.nComputed) f1,
                nComputed := inner.st.nComputed + 1,
                trace := inner.st.trace ++
                  [⟨st.nComputed, opts.localVars.getD inner.st.localVars, f1, true⟩] }
              props opts)
          | .ok _ => .error (.other "unexpected result")
          | .error err => .error err
      | .ok _ => .error (.other "unexpected result")
      | .error err => .error err
    else
      astep env fuel (.blocksA rest b e { st with nComputed := st.nComputed + 1 } props opts)
  | fuel + 1, .computeF f props opts =>
    let tvr := handleTextVars f.raw []
    let t0 := tvr.1.data
    let t1 := afterHash t0
    let t2 := afterBang t1
    let tpl := templateLoopGo env (scanDelim ['?', '#', '\x7b'] '\x7d' (t2.length + 1) t2)
      (String.mk t2) (opts.localVars.getD []) (sigilHidden f.hidden t0)
    match astep env fuel (.promptsA
        (scanDelim ['?', '\x7b'] '\x7d' (tpl.1.data.length + 1) tpl.1.data)
        tpl.1 [] props opts) with
    | .ok (.pr formula4 allUserVars) =>
      match astep env fuel (.rollsA (scanRolls (formula4.data.length + 1) formula4.data)
          formula4 [] props opts) with
      | .ok (.rl formula5 rolls) =>
        match Formula.computeStatic env.me
            { f with hidden := tpl.2.2, explanation := sigilExplanation f.explanation t1 }
            (.obj (objMerge props.fields
              ((opts.triggerEntity.map (fun te => te.props.fields)).getD [])))
            { opts with
                localVars := some (if allUserVars.isEmpty then tpl.2.1
                  else objMerge tpl.2.1 (env.userDialog allUserVars)),
                textVars := some tvr.2,
                rolls := some rolls,
                computeExplanation :=
                  opts.computeExplanation && sigilExplanation f.explanation t1 }
            (some formula5) with
        | .error err => .error (.uncomputable err)
        | .ok f2 => .ok (.fml f2)
      | .ok _ => .error (.other "unexpected result")
      | .error err => .error err
    | .ok _ => .error (.other "unexpected result")
    | .error err => .error err
  | _ + 1, .promptsA [] formula acc _ _ => .ok (.pr formula acc)
  | fuel + 1, .promptsA (m :: ms) formula acc props opts =>
    match execDisplay ((splitPipe ((m.drop 2).dropLast)).headD []) with
    | none => .error (.other "TypeError")
    | some disp =>
      match (match disp.displayName with
             | none => Except.ok (JSVal.str disp.name)
             | some dn =>
               match astep env fuel (.computeF { raw := dn } props opts) with
               | .ok (.fml fd) => Except.ok fd.result
               | .ok _ => Except.error (.other "unexpected result")
               | .error err => Except.error err : Except MathErr JSVal) with
      | .error err => .error err
      | .ok displayNameVal =>
        match astep env fuel (.choicesA (splitPipe ((m.drop 2).dropLast)).tail [] props opts) with
        | .ok (.ch values) =>
          astep env fuel (.promptsA ms
            (jsReplaceFirst formula (String.mk m) disp.name)
            (acc ++ [mkUserInput disp.name displayNameVal (disp.type.getD "text") values])
            props opts)
        | .ok _ => .error (.other "unexpected result")
        | .error err => .error err
  | _ + 1, .choicesA [] acc _ _ => .ok (.ch acc)
  | fuel + 1, .choicesA (c :: cs) acc props opts =>
    match execValues c with
    | none => .error (.other "TypeError")
    | some kv =>
      match astep env fuel (.computeF { raw := kv.1 } props opts) with
      | .ok (.fml fk) =>
        match (match kv.2 with
               | none => Except.ok fk.result
               | some v =>
                 match astep env fuel (.computeF { raw := v } props opts) with
                 | .ok (.fml fv) => Except.ok fv.result
                 | .ok _ => Except.error (.other "unexpected result")
                 | .error err => Except.error err : Except MathErr JSVal) with
        | .error err => .error err
        | .ok dv => astep env fuel (.choicesA cs (acc ++ [⟨fk.result, dv⟩]) props opts)
      | .ok _ => .error (.other "unexpected result")
      | .error err => .error err
  | _ + 1, .rollsA [] formula acc _ _ => .ok (.rl formula acc)
  | fuel + 1, .rollsA (m :: ms) formula acc props opts =>
    match astep env fuel (.evalRollA (String.mk ((m.drop 1).dropLast)) props opts) with
    | .ok (.rr (.drawn texts)) =>
      astep env fuel (.rollsA ms
        (jsReplaceFirstFn formula (String.mk m)
          (String.mk ('\'' :: ((joinComma texts).data ++ ['\'']))))
        acc props opts)
    | .ok (.rr (.rolled roll)) =>
      astep env fuel (.rollsA ms
        (jsReplaceFirst formula (String.mk m) (jsValToString roll.total))
        (acc ++ [⟨if String.mk m = "[" ++ roll.formula ++ "]" then String.mk m
                  else String.mk m ++ " → [" ++ roll.formula ++ "]", roll⟩])
        props opts)
    | .ok _ => .error (.other "unexpected result")
    | .error err => .error err
  | fuel + 1, .evalRollA rollText props opts =>
    if startsWithL rollText.data ['#'] then
      match astep env fuel (.rollPhraseA
          (String.mk ((splitPipe (rollText.data.drop 1)).headD [])) props opts) with
      | .ok (.ph tableName) =>
        match (match ((splitPipe (rollText.data.drop 1)).drop 1).head? with
               | some s => if s = [] then none else some s
               | none => none) with
        | some sv =>
          match astep env fuel (.rollPhraseA (String.mk sv) props opts) with
          | .ok (.ph svRes) =>
            match env.tableDraw tableName (some (env.rollApi svRes).total) with
            | some texts => .ok (.rr (.drawn texts))
            | none => .error (.other "TypeError")
          | .ok _ => .error (.other "unexpected result")
          | .error err => .error err
        | none =>
          match env.tableDraw tableName none with
          | some texts => .ok (.rr (.drawn texts))
          | none => .error (.other "TypeError")
      | .ok _ => .error (.other "unexpected result")
      | .error err => .error err
    else
      match astep env fuel (.rollPhraseA rollText props opts) with
      | .ok (.ph res) => .ok (.rr (.rolled (env.rollApi res)))
      | .ok _ => .error (.other "unexpected result")
      | .error err => .error err
  | fuel + 1, .rollPhraseA text props opts =>
    match astep env fuel (.phraseA
        (colonSubst (scanDelim [':'] ':' (text.data.length + 1) text.data) text)
        (colonSubst (scanDelim [':'] ':' (text.data.length + 1) text.data) text)
        {} props opts) with
    | .ok (.phr out) => .ok (.ph (aPhraseResult out))
    | .ok _ => .error (.other "unexpected result")
    | .error err => .error err

/-- `Formula.compute(props, options)` as a fuelled run of the dynamic
interpreter. Recursion through oracle-returned data (script results,
prompt contents) admits no a-priori bound, so the fuel is quantified at
the property level. -/
def Formula.compute (env : AsyncEnv) (fuel : Nat) (f : Formula) (props : JSVal)
    (opts : Options) : Except MathErr Formula :=
  match astep env fuel (.computeF f props opts) with
  | .ok (.fml f2) => .ok f2
  | .ok _ => .error (.other "unexpected result")
  | .error err => .error err

/-- `ComputablePhrase.compute(props, options)`: run the dynamic phrase
loop from the raw phrase with fresh state and package the outcome (the
ghost trace is returned alongside). -/
def ComputablePhrase.computeDyn (env : AsyncEnv) (fuel : Nat)
    (cp : ComputablePhrase) (props : JSVal) (opts : Options) :
    Except MathErr (ComputablePhrase × List ATrace) :=
  match astep env fuel (.phraseA cp.rawPhrase cp.rawPhrase {} props opts) with
  | .ok (.phr out) =>
    .ok ({ cp with buildPhrase := out.buildPhrase,
                   computedFormulas := out.st.computedFormulas }, out.st.trace)
  | .ok _ => .error (.other "unexpected result")
  | .error err => .error err

/-! ## Local-variable threading of the dynamic phrase loop -/

/-- The key list of a JS object given as a field list. -/
def lvKeys {α : Type _} (l : List (String × α)) : List String := l.map Prod.fst

/-- `(String.mk l).data = l`. -/
theorem string_data_mk (l : List Char) : (String.mk l).data = l := rfl

theorem objSet_keys_mem {α : Type _} (fields : List (String × α)) (k x : String)
    (v : α) (hx : x ∈ lvKeys fields) : x ∈ lvKeys (objSet fields k v) := by
  rw [objSet]
  split
  · have hfun : (fun (p : String × α) => Prod.fst (if p.1 = k then (k, v) else p))
        = fun (p : String × α) => p.1 := by
      funext p
      split <;> simp_all
    simp only [lvKeys, List.map_map, Function.comp_def, hfun]
    exact hx
  · simp only [lvKeys, List.map_append]
    exact List.mem_append_left _ hx

theorem objSet_keys_self {α : Type _} (fields : List (String × α)) (k : String)
    (v : α) : k ∈ lvKeys (objSet fields k v) := by
  rw [objSet]
  split
  · rename_i hany
    simp only [List.any_eq_true, decide_eq_true_eq] at hany
    obtain ⟨p, hp, hpk⟩ := hany
    simp only [lvKeys, List.map_map]
    exact List.mem_map.mpr ⟨p, hp, by simp [Function.comp_def, hpk]⟩
  · simp [lvKeys]

theorem objMerge_keys_left {α : Type _} (a b : List (String × α)) (x : String)
    (hx : x ∈ lvKeys a) : x ∈ lvKeys (objMerge a b) := by
  induction b generalizing a with
  | nil => simpa [objMerge] using hx
  | cons p bs ih =>
    show x ∈ lvKeys (List.foldl _ a (p :: bs))
    rw [List.foldl_cons]
    exact ih (objSet a p.1 p.2) (objSet_keys_mem _ _ _ _ hx)

theorem objMerge_keys_right {α : Type _} (a b : List (String × α)) (x : String)
    (hx : x ∈ lvKeys b) : x ∈ lvKeys (objMerge a b) := by
  induction b generalizing a with
  | nil => simp [lvKeys] at hx
  | cons p bs ih =>
    show x ∈ lvKeys (List.foldl _ a (p :: bs))
    rw [List.foldl_cons]
    have hx2 : x = p.1 ∨ x ∈ lvKeys bs := by
      simp only [lvKeys, List.map_cons, List.mem_cons] at hx
      exact hx
    rcases hx2 with rfl | hmem
    · have := objMerge_keys_left (objSet a p.1 p.2) bs p.1 (objSet_keys_self _ _ _)
      simpa [objMerge] using this
    · exact ih (objSet a p.1 p.2) hmem

/-- The scope discipline recorded along a segment of the ghost trace:
each entry's recorded scope is exactly the threaded local variables at
its time; a formula block then merges its Formula's local variables
into the thread, a script block leaves the thread unchanged. -/
def lvChainA : List (String × JSVal) → List ATrace → List (String × JSVal) → Prop
  | lv, [], lvEnd => lvEnd = lv
  | lv, e :: rest, lvEnd =>
    e.usedLocalVars = lv ∧
    ((e.isScript = false ∧ lvChainA (objMerge lv e.formula.localVars) rest lvEnd) ∨
     (e.isScript = true ∧ lvChainA lv rest lvEnd))

theorem lvChainA_append (A : List ATrace) :
    ∀ (B : List ATrace) (lv lvm lvEnd : List (String × JSVal)),
      lvChainA lv A lvm → lvChainA lvm B lvEnd → lvChainA lv (A ++ B) lvEnd := by
  induction A with
  | nil =>
    intro B lv lvm lvEnd h1 h2
    simp only [lvChainA] at h1
    subst h1
    simpa using h2
  | cons e A ih =>
    intro B lv lvm lvEnd h1 h2
    simp only [lvChainA] at h1
    obtain ⟨hu, hbr⟩ := h1
    refine ⟨hu, ?_⟩
    rcases hbr with ⟨hs, hch⟩ | ⟨hs, hch⟩
    · exact Or.inl ⟨hs, ih B _ _ _ hch h2⟩
    · exact Or.inr ⟨hs, ih B _ _ _ hch h2⟩

/-- Which work items are phrase-loop items, and their starting state
and options. -/
def ACall.phraseSt : ACall → Option (APhraseSt × Options)
  | .phraseA _ _ st _ o => some (st, o)
  | .blocksA _ _ _ st _ o => some (st, o)
  | _ => none

/-- Invariant of the dynamic phrase loop: when the phrase-level options
carry no `localVars` key, a successful run appends to the ghost trace a
segment obeying the scope discipline `lvChainA`, starting from the
entry state's local variables and ending at the final ones. -/
theorem astep_lvChain (env : AsyncEnv) :
    ∀ (fuel : Nat) (call : ACall) (st : APhraseSt) (o : Options) (out : APhraseOut),
      call.phraseSt = some (st, o) → o.localVars = none →
      astep env fuel call = .ok (.phr out) →
      ∃ new, out.st.trace = st.trace ++ new ∧
        lvChainA st.localVars new out.st.localVars := by
  intro fuel
  induction fuel with
  | zero =>
    intro call st o out hc ho h
    simp [astep] at h
  | succ fuel ih =>
    intro call st o out hc ho h
    match call with
    | .phraseA b e st2 p o2 =>
      simp only [ACall.phraseSt, Option.some.injEq, Prod.mk.injEq] at hc
      obtain ⟨rfl, rfl⟩ := hc
      rw [astep] at h
      exact ih _ _ _ _ (by exact rfl) ho h
    | .blocksA [] b e st2 p o2 =>
      simp only [ACall.phraseSt, Option.some.injEq, Prod.mk.injEq] at hc
      obtain ⟨rfl, rfl⟩ := hc
      rw [astep] at h
      injection h with h
      injection h with h
      subst h
      exact ⟨[], by simp, by simp [lvChainA]⟩
    | .blocksA (tf :: rest) b e st2 p o2 =>
      simp only [ACall.phraseSt, Option.some.injEq, Prod.mk.injEq] at hc
      obtain ⟨rfl, rfl⟩ := hc
      rw [astep] at h
      split at h
      · -- formula-block branch
        split at h
        all_goals try (exact absurd h (by simp))
        rename_i inner hinner
        split at h
        all_goals try (exact absurd h (by simp))
        rename_i f1 hf1
        obtain ⟨new1, htr1, hch1⟩ := ih _ _ _ _ (by exact rfl) ho hinner
        obtain ⟨new2, htr2, hch2⟩ := ih _ _ _ _ (by exact rfl) ho h
        refine ⟨new1 ++ ⟨st2.nComputed, o2.localVars.getD inner.st.localVars, f1, false⟩
          :: new2, ?_, ?_⟩
        · simp [htr2, htr1]
        · refine lvChainA_append _ _ _ _ _ hch1 ?_
          refine ⟨by rw [ho]; rfl, Or.inl ⟨rfl, ?_⟩⟩
          simpa using hch2
      · -- not a formula block
        split at h
        · -- script-block branch
          split at h
          all_goals try (exact absurd h (by simp))
          rename_i inner hinner
          split at h
          all_goals try (exact absurd h (by simp))
          rename_i v hv
          split at h
          all_goals try (exact absurd h (by simp))
          rename_i f1 hf1
          obtain ⟨new1, htr1, hch1⟩ := ih _ _ _ _ (by exact rfl) ho hinner
          obtain ⟨new2, htr2, hch2⟩ := ih _ _ _ _ (by exact rfl) ho h
          refine ⟨new1 ++ ⟨st2.nComputed, o2.localVars.getD inner.st.localVars, f1, true⟩
            :: new2, ?_, ?_⟩
          · simp [htr2, htr1]
          · refine lvChainA_append _ _ _ _ _ hch1 ?_
            refine ⟨by rw [ho]; rfl, Or.inr ⟨rfl, ?_⟩⟩
            simpa using hch2
        · -- neither kind
          obtain ⟨new, htr, hch⟩ := ih _ _ _ _ (by exact rfl) ho h
          exact ⟨new, by simpa using htr, by simpa using hch⟩

/-- Along a chain segment, membership in the threaded keys is preserved
down to any later entry's recorded scope. -/
theorem lvChainA_mono_mem :
    ∀ (mid : List ATrace) (lv lvEnd : List (String × JSVal)) (e2 : ATrace)
      (post : List ATrace) (x : String),
      lvChainA lv (mid ++ e2 :: post) lvEnd → x ∈ lvKeys lv →
      x ∈ lvKeys e2.usedLocalVars := by
  intro mid
  induction mid with
  | nil =>
    intro lv lvEnd e2 post x hch hx
    simp only [List.nil_append, lvChainA] at hch
    rw [hch.1]
    exact hx
  | cons e3 mid ih =>
    intro lv lvEnd e2 post x hch hx
    simp only [List.cons_append, lvChainA] at hch
    rcases hch.2 with ⟨_, hch2⟩ | ⟨_, hch2⟩
    · exact ih _ _ _ _ _ hch2 (objMerge_keys_left _ _ _ hx)
    · exact ih _ _ _ _ _ hch2 hx

/-- A local-variable key produced by a formula-block entry is in the
recorded scope of every later entry of the same chain segment. -/
theorem lvChainA_visible :
    ∀ (pre : List ATrace) (lv lvEnd : List (String × JSVal)) (e : ATrace)
      (mid : List ATrace) (e2 : ATrace) (post : List ATrace) (x : String),
      lvChainA lv (pre ++ e :: (mid ++ e2 :: post)) lvEnd →
      e.isScript = false → x ∈ lvKeys e.formula.localVars →
      x ∈ lvKeys e2.usedLocalVars := by
  intro pre
  induction pre with
  | nil =>
    intro lv lvEnd e mid e2 post x hch hs hx
    simp only [List.nil_append, lvChainA] at hch
    rcases hch.2 with ⟨_, hch2⟩ | ⟨hs2, _⟩
    · exact lvChainA_mono_mem mid _ _ _ _ _ hch2 (objMerge_keys_right _ _ _ hx)
    · rw [hs] at hs2
      exact absurd hs2 (by simp)
  | cons e0 pre ih =>
    intro pre2 lvEnd e mid e2 post x hch hs hx
    simp only [List.cons_append, lvChainA] at hch
    rcases hch.2 with ⟨_, hch2⟩ | ⟨_, hch2⟩
    · exact ih _ _ _ _ _ _ _ hch2 hs hx
    · exact ih _ _ _ _ _ _ _ hch2 hs hx

/-! ## Concrete oracle environments for scenarios and witnesses -/

/-- A concrete environment: the minimal math evaluator, no scripts, no
template items, a dialog that binds every requested input to 7, a Roll
API that always totals 4, and one roll table `T` whose draw yields a
single result with chat text `Goblin`. -/
def demoEnv : AsyncEnv :=
  { me := simpleEval, se := noScriptEval,
    templateUserData := fun _ => none,
    userDialog := fun l => l.map (fun u => (u.name, JSVal.num 7)),
    rollApi := fun s => ⟨.num 4, s⟩,
    tableDraw := fun n _ => if n = "T" then some ["Goblin"] else none }

/-- `demoEnv` with a script runner whose result is the text `?\x7bx\x7d`:
a prompt that only materializes inside the script block's Formula. -/
def scriptPromptEnv : AsyncEnv :=
  { demoEnv with se := fun _ _ _ => .ok (.str ("?\x7bx\x7d")) }


/-- Projection of a phrase-run outcome for concrete statements: per
trace entry its id, branch kind, recorded scope keys and Formula
local-variable keys. -/
def phraseTraceProbe (r : Except MathErr ARes) :
    Option (List (Nat × Bool × List String × List String)) :=
  match r with
  | .ok (.phr out) =>
    some (out.st.trace.map (fun (e : ATrace) => (e.computedId, e.isScript,
      lvKeys e.usedLocalVars, lvKeys e.formula.localVars)))
  | _ => none

/-- The final local-variable keys of a phrase-run outcome. -/
def phraseKeysProbe (r : Except MathErr ARes) : Option (List String) :=
  match r with
  | .ok (.phr out) => some (lvKeys out.st.localVars)
  | _ => none

/-- The rewritten expression of a phrase-run outcome. -/
def phraseExprProbe (r : Except MathErr ARes) : Option String :=
  match r with
  | .ok (.phr out) => some out.expression
  | _ => none

/-- Projection of a compute outcome onto the two sigil flags and the
parsed text. -/
def flagsProbe (r : Except MathErr ARes) : Option (Bool × Bool × String) :=
  match r with
  | .ok (.fml f) => some (f.hidden, f.explanation, f.parsed)
  | _ => none

/-- Projection of a compute outcome onto the dice flag, the number of
retained rolls and the parsed text. -/
def diceProbe (r : Except MathErr ARes) : Option (Bool × Nat × String) :=
  match r with
  | .ok (.fml f) => some (f.hasDice, f.rolls.length, f.parsed)
  | _ => none

/-! ## Claim C5 -/

/-- C5 counterexample: in the phrase `%\x7bs\x7d%$\x7bx\x7d$` the script
returns the text `?\x7bx\x7d`, whose prompt dialog captures the local
variable `x` while the script block's Formula is computed — the block's
stored Formula ends with `x` among its local variables — yet the
following formula block is computed with an empty scope, the phrase's
final local variables are empty, and the second block falls back to the
configured default: a prompt capture inside a script block is not
carried to the later blocks of the same phrase, because the script
branch never merges its Formula's local variables back. -/
theorem script_prompt_capture_dropped :
    phraseTraceProbe (astep scriptPromptEnv 40 (.phraseA ("%\x7bs\x7d%$\x7bx\x7d$")
        ("%\x7bs\x7d%$\x7bx\x7d$") {} (.obj []) { defaultValue := .str "DEF" }))
      = some [(0, true, [], ["x"]), (1, false, [], [])] ∧
    phraseKeysProbe (astep scriptPromptEnv 40 (.phraseA ("%\x7bs\x7d%$\x7bx\x7d$")
        ("%\x7bs\x7d%$\x7bx\x7d$") {} (.obj []) { defaultValue := .str "DEF" }))
      = some [] ∧
    phraseExprProbe (astep scriptPromptEnv 40 (.phraseA ("%\x7bs\x7d%$\x7bx\x7d$")
        ("%\x7bs\x7d%$\x7bx\x7d$") {} (.obj []) { defaultValue := .str "DEF" }))
      = some (String.mk ['\'', '?', '\x7b', 'x', '\x7d', '\'', 'D', 'E', 'F']) := by
  refine ⟨by decide!, by decide!, by decide!⟩

/-- C5 (amended): in a phrase computation whose options carry no
`localVars` key, every local-variable key held by the Formula of a
formula block (`$\x7b...\x7d$` — the only block kind able to introduce
one by `x:=expr`, and the only one whose prompt captures are kept) is
present in the scope recorded for every later block of the same
phrase; and the first block computed by a phrase sees an empty
local-variable scope, so nothing leaks into an independently evaluated
phrase, which always starts from fresh state. Keys captured while a
script block's Formula is computed are dropped (see the
counterexample). -/
theorem phrase_localVar_scope (env : AsyncEnv) (fuel : Nat) (phrase : String)
    (props : JSVal) (opts : Options) (out : APhraseOut)
    (ho : opts.localVars = none)
    (h : astep env fuel (.phraseA phrase phrase {} props opts) = .ok (.phr out)) :
    (∀ (pre : List ATrace) (e : ATrace) (mid : List ATrace) (e2 : ATrace)
       (post : List ATrace),
       out.st.trace = pre ++ e :: (mid ++ e2 :: post) → e.isScript = false →
       ∀ x, x ∈ lvKeys e.formula.localVars → x ∈ lvKeys e2.usedLocalVars) ∧
    (∀ (e : ATrace) (rest : List ATrace), out.st.trace = e :: rest →
       e.usedLocalVars = []) := by
  obtain ⟨new, htr, hch⟩ := astep_lvChain env fuel _ {} opts out (by exact rfl) ho h
  have htr2 : out.st.trace = new := by simpa using htr
  constructor
  · intro pre e mid e2 post heq hs x hx
    have hne : new = pre ++ e :: (mid ++ e2 :: post) := by rw [← htr2, heq]
    rw [hne] at hch
    exact lvChainA_visible pre _ _ e mid e2 post x hch hs hx
  · intro e rest heq
    have hne : new = e :: rest := by rw [← htr2, heq]
    rw [hne] at hch
    exact hch.1

/-- C5 witness: the scope theorem applied to a concrete run of
`$\x7bx:=5\x7d$ and $\x7bx\x7d$`: the run succeeds with two trace
entries, the key `x` assigned by the first block is in the second
block's recorded scope, and the first block's scope is empty. -/
theorem phrase_localVar_scope_witness :
    ∃ (out : APhraseOut) (e0 e1 : ATrace),
      astep demoEnv 8 (.phraseA ("$\x7bx:=5\x7d$ and $\x7bx\x7d$")
        ("$\x7bx:=5\x7d$ and $\x7bx\x7d$") {} (.obj []) {}) = .ok (.phr out) ∧
      out.st.trace = [e0, e1] ∧ "x" ∈ lvKeys e1.usedLocalVars ∧
      e0.usedLocalVars = [] := by
  have hp : phraseTraceProbe (astep demoEnv 8 (.phraseA ("$\x7bx:=5\x7d$ and $\x7bx\x7d$")
      ("$\x7bx:=5\x7d$ and $\x7bx\x7d$") {} (.obj []) {}))
      = some [(0, false, [], ["x"]), (1, false, ["x"], ["x"])] := by decide!
  cases hE : astep demoEnv 8 (.phraseA ("$\x7bx:=5\x7d$ and $\x7bx\x7d$")
      ("$\x7bx:=5\x7d$ and $\x7bx\x7d$") {} (.obj []) {}) with
  | error err => rw [hE] at hp; simp [phraseTraceProbe] at hp
  | ok r =>
    cases r with
    | phr out =>
      rw [hE] at hp
      simp only [phraseTraceProbe, Option.some.injEq] at hp
      have H := phrase_localVar_scope demoEnv 8 ("$\x7bx:=5\x7d$ and $\x7bx\x7d$")
        (JSVal.obj []) {} out rfl hE
      match htr : out.st.trace with
      | [] => rw [htr] at hp; simp at hp
      | [e0] => rw [htr] at hp; simp at hp
      | e0 :: e1 :: e2 :: rest => rw [htr] at hp; simp at hp
      | [e0, e1] =>
        rw [htr] at hp
        simp only [List.map_cons, List.map_nil, List.cons.injEq, Prod.mk.injEq,
          and_true] at hp
        refine ⟨out, e0, e1, rfl, htr, ?_, ?_⟩
        · have hx0 : "x" ∈ lvKeys e0.formula.localVars := by
            rw [hp.1.2.2.2]
            simp
          exact H.1 [] e0 [] e1 [] htr hp.1.2.1 "x" hx0
        · exact H.2 e0 [e1] htr
    | fml f => rw [hE] at hp; simp [phraseTraceProbe] at hp
    | pr a b => rw [hE] at hp; simp [phraseTraceProbe] at hp
    | ch a => rw [hE] at hp; simp [phraseTraceProbe] at hp
    | rl a b => rw [hE] at hp; simp [phraseTraceProbe] at hp
    | rr a => rw [hE] at hp; simp [phraseTraceProbe] at hp
    | ph a => rw [hE] at hp; simp [phraseTraceProbe] at hp

/-! ## Claim C6 -/

/-- `computeStatic` never touches the hidden and explanation flags or
the raw text: they pass through from the Formula it is given. -/
theorem computeStatic_preserves_flags (me : MathEval) (f : Formula) (props : JSVal)
    (options : Options) (fo : Option String) (f2 : Formula)
    (h : Formula.computeStatic me f props options fo = .ok f2) :
    f2.hidden = f.hidden ∧ f2.explanation = f.explanation ∧ f2.raw = f.raw := by
  simp only [Formula.computeStatic] at h
  split at h
  · exact absurd h (by simp)
  · injection h with h
    subst h
    exact ⟨rfl, rfl, rfl⟩
  · injection h with h
    subst h
    exact ⟨rfl, rfl, rfl⟩

/-- One step of `astep` on an exhausted prompt loop. -/
theorem astep_promptsA_nil (env : AsyncEnv) (fuel : Nat) (formula : String)
    (acc : List UserInput) (props : JSVal) (opts : Options) :
    astep env (fuel + 1) (.promptsA [] formula acc props opts) = .ok (.pr formula acc) :=
  rfl

/-- One step of `astep` on an exhausted roll loop. -/
theorem astep_rollsA_nil (env : AsyncEnv) (fuel : Nat) (formula : String)
    (acc : List RollRecord) (props : JSVal) (opts : Options) :
    astep env (fuel + 1) (.rollsA [] formula acc props opts) = .ok (.rl formula acc) :=
  rfl

/-- Flag discipline of one `Formula.compute` run on a formula whose
post-sigil text contains no user-input template, no prompt and no roll
match: the hidden flag is forced exactly by a leading `#`, the
explanation flag is cleared exactly by a `!` leading the text after the
`#` strip, and the raw text is untouched. -/
theorem astep_computeF_flags (env : AsyncEnv) (fuel : Nat) (f f2 : Formula)
    (props : JSVal) (opts : Options)
    (h1 : scanDelim ['?', '#', '\x7b'] '\x7d'
        ((afterBang (afterHash (handleTextVars f.raw []).1.data)).length + 1)
        (afterBang (afterHash (handleTextVars f.raw []).1.data)) = [])
    (h2 : scanDelim ['?', '\x7b'] '\x7d'
        ((afterBang (afterHash (handleTextVars f.raw []).1.data)).length + 1)
        (afterBang (afterHash (handleTextVars f.raw []).1.data)) = [])
    (h3 : scanRolls ((afterBang (afterHash (handleTextVars f.raw []).1.data)).length + 1)
        (afterBang (afterHash (handleTextVars f.raw []).1.data)) = [])
    (h : astep env fuel (.computeF f props opts) = .ok (.fml f2)) :
    f2.hidden = sigilHidden f.hidden (handleTextVars f.raw []).1.data ∧
    f2.explanation = sigilExplanation f.explanation
      (afterHash (handleTextVars f.raw []).1.data) ∧
    f2.raw = f.raw := by
  match fuel with
  | 0 => simp [astep] at h
  | fuel + 1 =>
    simp only [astep] at h
    rw [h1] at h
    simp only [templateLoopGo, string_data_mk] at h
    rw [h2] at h
    match fuel with
    | 0 => simp [astep] at h
    | fuel + 1 =>
      simp only [astep_promptsA_nil, string_data_mk] at h
      rw [h3] at h
      simp only [astep_rollsA_nil] at h
      split at h
      · exact absurd h (by simp)
      · rename_i f2' hf2'
        injection h with h
        injection h with h
        subst h
        exact computeStatic_preserves_flags _ _ _ _ _ _ hf2'

/-- C6 (amended): `compute` checks `#` first and `!` second, so only
the order `#!` strips both sigils; with `!#` only the `!` is consumed
(`#` remains in the computed text and the hidden flag stays down — see
the counterexample). On a formula free of template, prompt and roll
matches: the hidden flag of the computed Formula is its previous value
forced to true exactly when the isolated text starts with `#`, the
explanation flag is its previous value cleared exactly when the text
after the `#` strip starts with `!`, the raw text never changes, and a
recomputation of the same instance leaves both flags unchanged (the
flag updates are idempotent). -/
theorem compute_sigil_discipline (env : AsyncEnv) (fuel : Nat) (f f2 : Formula)
    (props : JSVal) (opts : Options)
    (h1 : scanDelim ['?', '#', '\x7b'] '\x7d'
        ((afterBang (afterHash (handleTextVars f.raw []).1.data)).length + 1)
        (afterBang (afterHash (handleTextVars f.raw []).1.data)) = [])
    (h2 : scanDelim ['?', '\x7b'] '\x7d'
        ((afterBang (afterHash (handleTextVars f.raw []).1.data)).length + 1)
        (afterBang (afterHash (handleTextVars f.raw []).1.data)) = [])
    (h3 : scanRolls ((afterBang (afterHash (handleTextVars f.raw []).1.data)).length + 1)
        (afterBang (afterHash (handleTextVars f.raw []).1.data)) = [])
    (h : astep env fuel (.computeF f props opts) = .ok (.fml f2)) :
    (f2.hidden = sigilHidden f.hidden (handleTextVars f.raw []).1.data ∧
     f2.explanation = sigilExplanation f.explanation
       (afterHash (handleTextVars f.raw []).1.data) ∧
     f2.raw = f.raw) ∧
    (∀ (fuel2 : Nat) (f3 : Formula),
       astep env fuel2 (.computeF f2 props opts) = .ok (.fml f3) →
       f3.hidden = f2.hidden ∧ f3.explanation = f2.explanation) := by
  obtain ⟨ha, hb, hc⟩ := astep_computeF_flags env fuel f f2 props opts h1 h2 h3 h
  refine ⟨⟨ha, hb, hc⟩, ?_⟩
  intro fuel2 f3 h'
  have h1' : scanDelim ['?', '#', '\x7b'] '\x7d'
      ((afterBang (afterHash (handleTextVars f2.raw []).1.data)).length + 1)
      (afterBang (afterHash (handleTextVars f2.raw []).1.data)) = [] := by
    rw [hc]
    exact h1
  have h2' : scanDelim ['?', '\x7b'] '\x7d'
      ((afterBang (afterHash (handleTextVars f2.raw []).1.data)).length + 1)
      (afterBang (afterHash (handleTextVars f2.raw []).1.data)) = [] := by
    rw [hc]
    exact h2
  have h3' : scanRolls ((afterBang (afterHash (handleTextVars f2.raw []).1.data)).length + 1)
      (afterBang (afterHash (handleTextVars f2.raw []).1.data)) = [] := by
    rw [hc]
    exact h3
  obtain ⟨ha2, hb2, _⟩ := astep_computeF_flags env fuel2 f2 f3 props opts h1' h2' h3' h'
  constructor
  · rw [ha2, hc, ha]
    simp only [sigilHidden]
    split <;> rfl
  · rw [hb2, hc, hb]
    simp only [sigilExplanation]
    split <;> rfl
/-- C6 counterexample: on the raw text `!#1` compute consumes only the
`!` (the `#` check ran first and failed), so the hidden flag stays
false, the explanation flag is cleared, and the leftover `#` flows into
the evaluated text (making it unparsable here): the two sigils are not
stripped in either order. -/
theorem compute_bang_hash_counterexample :
    flagsProbe (astep demoEnv 20 (.computeF { raw := "!#1" } (.obj []) {}))
      = some (false, false, "#1") := by
  decide!

/-- C6 witness: the sigil discipline applied to a concrete run of
`#!1` (the stripping order the code does support): both flags are set
accordingly and the raw text is kept. -/
theorem compute_sigil_discipline_witness :
    (scanDelim ['?', '#', '\x7b'] '\x7d'
        ((afterBang (afterHash (handleTextVars "#!1" []).1.data)).length + 1)
        (afterBang (afterHash (handleTextVars "#!1" []).1.data)) = []) ∧
    ∃ (f2 : Formula), astep demoEnv 5 (.computeF { raw := "#!1" } (.obj []) {}) = .ok (.fml f2) ∧
      f2.hidden = true ∧ f2.explanation = false ∧ f2.raw = "#!1" := by
  have hp : flagsProbe (astep demoEnv 5 (.computeF { raw := "#!1" } (.obj []) {}))
      = some (true, false, "1") := by decide!
  refine ⟨by decide, ?_⟩
  cases hE : astep demoEnv 5 (.computeF { raw := "#!1" } (.obj []) {}) with
  | error err => rw [hE] at hp; simp [flagsProbe] at hp
  | ok r =>
    cases r with
    | fml f2 =>
      have H := compute_sigil_discipline demoEnv 5 { raw := "#!1" } f2 (JSVal.obj []) {}
        (by decide) (by decide) (by decide) hE
      refine ⟨f2, rfl, ?_, ?_, H.1.2.2⟩
      · rw [H.1.1]
        decide
      · rw [H.1.2.1]
        decide
    | phr a => rw [hE] at hp; simp [flagsProbe] at hp
    | pr a b => rw [hE] at hp; simp [flagsProbe] at hp
    | ch a => rw [hE] at hp; simp [flagsProbe] at hp
    | rl a b => rw [hE] at hp; simp [flagsProbe] at hp
    | rr a => rw [hE] at hp; simp [flagsProbe] at hp
    | ph a => rw [hE] at hp; simp [flagsProbe] at hp

/-! ## Claim C9 -/

/-- `computeStatic` derives both the rolls list and the dice flag from
the rolls handed over in the options: `hasDice` is exactly the
non-emptiness of that list. -/
theorem computeStatic_rolls_hasDice (me : MathEval) (f : Formula) (props : JSVal)
    (options : Options) (fo : Option String) (f2 : Formula)
    (h : Formula.computeStatic me f props options fo = .ok f2) :
    f2.rolls = options.rolls.getD [] ∧ (f2.hasDice = true ↔ f2.rolls ≠ []) := by
  simp only [Formula.computeStatic] at h
  split at h
  · exact absurd h (by simp)
  · injection h with h
    subst h
    refine ⟨rfl, ?_⟩
    simp [List.length_pos]
  · injection h with h
    subst h
    refine ⟨rfl, ?_⟩
    simp [List.length_pos]

/-- C9 (amended): after `compute`, `hasDice` is true exactly when the
computed Formula's `rolls` list is non-empty — and that list collects
only the roll blocks whose evaluation produced a plain rolled total:
roll-table draws (the `[#Table|selector]` variant) return selectable
result entries, are spliced into the text as quoted chat text, and are
never appended to `rolls` (see the counterexample: a formula made of
one roll-table block ends with `hasDice` false). A formula with no
template, prompt or roll match has no rolls and `hasDice` false; one
whose roll block evaluates through the Roll API (such as `[2]`) has
`hasDice` true. -/
theorem compute_hasDice_discipline :
    (∀ (env : AsyncEnv) (fuel : Nat) (f f2 : Formula) (props : JSVal) (opts : Options),
      astep env fuel (.computeF f props opts) = .ok (.fml f2) →
      (f2.hasDice = true ↔ f2.rolls ≠ [])) ∧
    (∀ (env : AsyncEnv) (fuel : Nat) (f f2 : Formula) (props : JSVal) (opts : Options),
      scanDelim ['?', '#', '\x7b'] '\x7d'
        ((afterBang (afterHash (handleTextVars f.raw []).1.data)).length + 1)
        (afterBang (afterHash (handleTextVars f.raw []).1.data)) = [] →
      scanDelim ['?', '\x7b'] '\x7d'
        ((afterBang (afterHash (handleTextVars f.raw []).1.data)).length + 1)
        (afterBang (afterHash (handleTextVars f.raw []).1.data)) = [] →
      scanRolls ((afterBang (afterHash (handleTextVars f.raw []).1.data)).length + 1)
        (afterBang (afterHash (handleTextVars f.raw []).1.data)) = [] →
      astep env fuel (.computeF f props opts) = .ok (.fml f2) →
      f2.hasDice = false ∧ f2.rolls = []) ∧
    (diceProbe (astep demoEnv 30 (.computeF { raw := "[2]" } (.obj []) {}))
      = some (true, 1, "4")) := by
  refine ⟨?_, ?_, by decide!⟩
  · intro env fuel f f2 props opts h
    match fuel with
    | 0 => simp [astep] at h
    | fuel + 1 =>
      simp only [astep] at h
      split at h
      all_goals try (apply absurd h; simp; done)
      rename_i formula4 allUserVars hpr
      split at h
      all_goals try (apply absurd h; simp; done)
      rename_i formula5 rolls hrl
      split at h
      · exact absurd h (by simp)
      · rename_i f2' hf2'
        injection h with h
        injection h with h
        subst h
        exact (computeStatic_rolls_hasDice _ _ _ _ _ _ hf2').2
  · intro env fuel f f2 props opts h1 h2 h3 h
    match fuel with
    | 0 => simp [astep] at h
    | fuel + 1 =>
      simp only [astep] at h
      rw [h1] at h
      simp only [templateLoopGo, string_data_mk] at h
      rw [h2] at h
      match fuel with
      | 0 => simp [astep] at h
      | fuel + 1 =>
        simp only [astep_promptsA_nil, string_data_mk] at h
        rw [h3] at h
        simp only [astep_rollsA_nil] at h
        split at h
        · exact absurd h (by simp)
        · rename_i f2' hf2'
          injection h with h
          injection h with h
          rw [h] at hf2'
          obtain ⟨hr, hiff⟩ := computeStatic_rolls_hasDice _ _ _ _ _ _ hf2'
          have hr2 : f2.rolls = [] := by simpa using hr
          rw [hr2] at hiff
          simp only [ne_eq, not_true_eq_false, iff_false] at hiff
          exact ⟨by simpa using hiff, hr2⟩

/-- C9 counterexample: the raw text `[#T]` consists of one roll block
(the roll matcher finds it), the block is a roll-table draw, and after
a successful compute the Formula has an empty rolls list and
`hasDice = false`: a formula whose only roll block is a roll-table
variant ends with `hasDice` false, refuting the claimed equivalence. -/
theorem compute_rolltable_no_dice :
    scanRolls ("[#T]".data.length + 1) "[#T]".data = ["[#T]".data] ∧
    diceProbe (astep demoEnv 30 (.computeF { raw := "[#T]" } (.obj []) {}))
      = some (false, 0, String.mk ['\'', 'G', 'o', 'b', 'l', 'i', 'n', '\'']) := by
  refine ⟨by decide, by decide!⟩

/-- C9 witness: the dice discipline applied to a concrete roll-free
run of `1`: no rolls are retained and `hasDice` stays false, in
accordance with the equivalence. -/
theorem compute_hasDice_discipline_witness :
    (scanRolls ((afterBang (afterHash (handleTextVars "1" []).1.data)).length + 1)
      (afterBang (afterHash (handleTextVars "1" []).1.data)) = []) ∧
    ∃ (f2 : Formula), astep demoEnv 5 (.computeF { raw := "1" } (.obj []) {}) = .ok (.fml f2) ∧
      f2.hasDice = false ∧ f2.rolls = [] ∧ (f2.hasDice = true ↔ f2.rolls ≠ []) := by
  have hp : diceProbe (astep demoEnv 5 (.computeF { raw := "1" } (.obj []) {}))
      = some (false, 0, "1") := by decide!
  refine ⟨by decide, ?_⟩
  cases hE : astep demoEnv 5 (.computeF { raw := "1" } (.obj []) {}) with
  | error err => rw [hE] at hp; simp [diceProbe] at hp
  | ok r =>
    cases r with
    | fml f2 =>
      have H2 := compute_hasDice_discipline.2.1 demoEnv 5 { raw := "1" } f2 (JSVal.obj []) {}
        (by decide) (by decide) (by decide) hE
      have H1 := compute_hasDice_discipline.1 demoEnv 5 { raw := "1" } f2 (JSVal.obj []) {} hE
      exact ⟨f2, rfl, H2.1, H2.2, H1⟩
    | phr a => rw [hE] at hp; simp [diceProbe] at hp
    | pr a b => rw [hE] at hp; simp [diceProbe] at hp
    | ch a => rw [hE] at hp; simp [diceProbe] at hp
    | rl a b => rw [hE] at hp; simp [diceProbe] at hp
    | rr a => rw [hE] at hp; simp [diceProbe] at hp
    | ph a => rw [hE] at hp; simp [diceProbe] at hp

end CSB
